import Mathlib

/-!
Verification development for the STRUMPACK multifrontal / HSS core.

Shallow embedding of:
* the dense frontal-matrix kernels of FrontalMatrixDense
  (extend_add_to_dense, factor_phase2) from runYang_Formula.sh;
* the ANN compression kernels of HSSMatrix
  (compress_recursive_ann, compute_U_V_bases_ann) from
  src/HSS/HSSMatrix.compress.kernel.hpp and runYang_Formula.sh;
* the HSS reconstruction (HSSMatrix::dense_recursive) and the recursive
  partition constructor from src/HSS/HSSMatrix.hpp;
* Kernel::eval and Kernel::operator() from src/kernel/KernelRegression.hpp;
* getLeafsRange from src/clustering/NeighborSearch_MPI.hpp.

Matrices are embedded as total functions of their index pair over ℚ with
dimensions tracked separately; machine integers that are provably
non-overflowing in the claims are embedded as Nat / Int.
-/

set_option maxHeartbeats 1000000

namespace StrumpackSpec

/-! ### State of an HSS node (HSSMatrixBase / HSSExtra State enum) -/

/-- Compression state of an HSS node, as the `State` enum used by
`HSSMatrixBase` (values UNTOUCHED, PARTIALLY_COMPRESSED, COMPRESSED). -/
inductive HSSState where
  | UNTOUCHED
  | PARTIALLY_COMPRESSED
  | COMPRESSED
deriving DecidableEq, Repr

/-- Numeric level of a state in the advancement order
UNTOUCHED (0) → PARTIALLY_COMPRESSED (1) → COMPRESSED (2). -/
def HSSState.toLevel : HSSState → Nat
  | .UNTOUCHED => 0
  | .PARTIALLY_COMPRESSED => 1
  | .COMPRESSED => 2

/-- Modelled from the spec: `HSSMatrixBase::is_compressed` (the file
HSSMatrixBase.hpp is not under src/); the spec says accuracy failure is
"reported via a status flag" and the driver loops on `!this->is_compressed()`,
so the predicate holds exactly when both basis states are COMPRESSED (here a
node carries a single state, since the code always assigns
`_U_state = _V_state`). -/
def isCompressedState (s : HSSState) : Bool := s = HSSState.COMPRESSED

/-! ### Accuracy acceptance check of the ANN compression

Embedding of `HSSMatrix::compute_U_V_bases_ann` (runYang_Formula.sh lines
1685-1730), reduced to its accept/reject decision: the code returns `false`
(reject) exactly when
`!(d >= cols || d >= max_rank || (U.cols()+p < d && V.cols()+p < d))`.
The ranks `rU`, `rV` are `_U.cols()` and `_V.cols()` after `ID_row`
(the code sets `_V = _U`, so `rU = rV` in every actual call). -/

/-- Accept/reject decision of compute_U_V_bases_ann (runYang variant):
true (accurate) iff `d ≥ cols ∨ d ≥ max_rank ∨ (rU + p < d ∧ rV + p < d)`. -/
def computeUVBasesAnnAccurate (cols maxRank p d rU rV : Int) : Bool :=
  decide (d ≥ cols) || decide (d ≥ maxRank) ||
    (decide (rU + p < d) && decide (rV + p < d))

/-- Accept/reject decision of compute_U_V_bases_ann in the variant of
src/HSS/HSSMatrix.compress.kernel.hpp lines 243-252: `accurate` is set to
false exactly when `!(d - p >= max_rank || (rU < d - p && rV < d - p))`. -/
def computeUVBasesAnnAccurateSrc (maxRank p d rU rV : Int) : Bool :=
  decide (d - p ≥ maxRank) || (decide (rU < d - p) && decide (rV < d - p))

/-- State assignment step at the end of compress_recursive_ann
(runYang_Formula.sh lines 1556-1567): at the root (`w.lvl == 0`) the state is
set to COMPRESSED unconditionally; otherwise it is set to COMPRESSED only when
compute_U_V_bases_ann returned true, and left unchanged otherwise. -/
def annStateUpdate (lvl : Nat) (accurate : Bool) (st : HSSState) : HSSState :=
  if lvl = 0 then HSSState.COMPRESSED
  else if accurate then HSSState.COMPRESSED
  else st

/-! ### State evolution of compress_recursive_ann over the HSS tree

The numeric contents (samples, scores, bases) do not influence which state
values can be assigned, only which branch is taken; they are abstracted into
a per-node oracle `acc : List Bool → Bool` giving the result of
compute_U_V_bases_ann at each tree position (path of child choices). -/

/-- Binary tree of HSS nodes carrying only the per-node compression state. -/
inductive STree where
  | leaf (st : HSSState)
  | node (st : HSSState) (c0 c1 : STree)

/-- State stored at the root of a subtree. -/
def STree.rootState : STree → HSSState
  | .leaf st => st
  | .node st _ _ => st

/-- State stored at a position (path of child choices, false = first child);
a path descending below a leaf reads the leaf's state. -/
def stateAt : STree → List Bool → HSSState
  | t, [] => t.rootState
  | .leaf st, _ :: _ => st
  | .node _ c0 c1, b :: p => stateAt (if b then c1 else c0) p

/-- State evolution of compress_recursive_ann (runYang_Formula.sh lines
1506-1570): recurse into both children; if either child did not end up
compressed, return with this node's state unchanged; otherwise run the
common tail, which assigns COMPRESSED at the root level and, elsewhere,
assigns COMPRESSED exactly when the bases were accepted (oracle `acc`). -/
def compressRecAnn (acc : List Bool → Bool) : List Bool → Nat → STree → STree
  | path, lvl, .leaf st => .leaf (annStateUpdate lvl (acc path) st)
  | path, lvl, .node st c0 c1 =>
      let d0 := compressRecAnn acc (path ++ [false]) (lvl + 1) c0
      let d1 := compressRecAnn acc (path ++ [true]) (lvl + 1) c1
      if isCompressedState d0.rootState ∧ isCompressedState d1.rootState then
        .node (annStateUpdate lvl (acc path) st) d0 d1
      else
        .node st d0 d1

/-! ### Kernel matrix element oracle (src/kernel/KernelRegression.hpp) -/

/-- Embedding of `Kernel::eval` (KernelRegression.hpp lines 398-401):
`eval_kernel_function(x_i, x_j) + ((i == j) ? lambda : 0)`; the scalar kernel
function on the data points is the parameter `kf`. -/
def kernelEval (kf : Nat → Nat → ℚ) (lambda : ℚ) (i j : Nat) : ℚ :=
  kf i j + (if i = j then lambda else 0)

/-- Embedding of `Kernel::operator()` (KernelRegression.hpp lines 414-423):
fills `B(i, j) = eval(I[i], J[j])` for `i < |I|`, `j < |J|`. -/
def kernelExtract (kf : Nat → Nat → ℚ) (lambda : ℚ)
    (I J : List Nat) (i j : Nat) : ℚ :=
  kernelEval kf lambda (I.getD i 0) (J.getD j 0)

/-! ### getLeafsRange (src/clustering/NeighborSearch_MPI.hpp lines 96-125) -/

/-- Embedding of `getLeafsRange(n, p, rank)`: with `size = n / p`,
`rem = n % p`, returns `[sub_start, sub_start + sub_len]` where ranks below
`rem` get `sub_len = size + 1`, `sub_start = rank * size + rank`, and the
remaining ranks get `sub_len = size`, `sub_start = rank * size + rem`. -/
def getLeafsRange (n p rank : Nat) : List Nat :=
  if rank < n % p then
    [rank * (n / p) + rank, rank * (n / p) + rank + (n / p + 1)]
  else
    [rank * (n / p) + n % p, rank * (n / p) + n % p + (n / p)]

/-- First entry of getLeafsRange: the start of the rank's half-open range. -/
def leafsRangeStart (n p rank : Nat) : Nat := (getLeafsRange n p rank).getD 0 0

/-- Second entry of getLeafsRange: the end of the rank's half-open range. -/
def leafsRangeEnd (n p rank : Nat) : Nat := (getLeafsRange n p rank).getD 1 0

/-! ### Tiny-pivot replacement (factor_phase2, runYang_Formula.sh 1113-1120)

After the LU factorization of F11, when replace_tiny_pivots is set the code
walks the diagonal and replaces every entry of magnitude below
`thresh = lamch('E') * A.size()` by `-thresh` or `+thresh` according to the
sign of its real part. The diagonal is embedded as a function on Nat; the
scalar type is real, so the real part is the entry itself. -/

/-- Embedding of the replace_tiny_pivots loop: for `i = 0 .. rows-1`,
`if (|F11(i,i)| < thresh) F11(i,i) = (Re F11(i,i) < 0) ? -thresh : thresh`. -/
def replaceTinyPivots (thresh : ℚ) (rows : Nat) (d : Nat → ℚ) : Nat → ℚ :=
  (List.range rows).foldl
    (fun dd i =>
      if |dd i| < thresh then
        Function.update dd i (if dd i < 0 then -thresh else thresh)
      else dd)
    d

/-! ### Recursive partition constructor (src/HSS/HSSMatrix.hpp 212-222) -/

/-- Binary partition tree produced by the recursive HSSMatrix constructor;
each node records its (rows, cols) dimensions. -/
inductive PTree where
  | leaf (m n : Nat)
  | node (m n : Nat) (c0 c1 : PTree)

/-- Leaves of a partition tree, in order, as (rows, cols) pairs. -/
def PTree.leavesList : PTree → List (Nat × Nat)
  | .leaf m n => [(m, n)]
  | .node _ _ c0 c1 => c0.leavesList ++ c1.leavesList

/-- Embedding of the recursive constructor `HSSMatrix(m, n, opts, active)`
(src/HSS/HSSMatrix.hpp lines 212-222): when `m > leaf_size || n > leaf_size`
the node gets two children of sizes (m/2, n/2) and (m - m/2, n - n/2),
otherwise it is a leaf. The hypothesis `hL` (a positive leaf size, the only
validity precondition the spec allows) makes the recursion well-founded:
with L = 0 and m = n = 1 the second child would repeat (1, 1) forever. -/
def buildHSSTree (L : Nat) (hL : 1 ≤ L) (m n : Nat) : PTree :=
  if L < m ∨ L < n then
    PTree.node m n (buildHSSTree L hL (m / 2) (n / 2))
      (buildHSSTree L hL (m - m / 2) (n - n / 2))
  else PTree.leaf m n
termination_by m + n
decreasing_by
  · omega
  · omega

/-! ### Extend-add of a child Schur complement into the parent front
(FrontalMatrixDense::extend_add_to_dense, runYang_Formula.sh 1013-1042) -/

/-- Matrix embedded as a total function of its indices; dimensions are
tracked separately by the loops that touch it. -/
abbrev Mat := Nat → Nat → ℚ

/-- Single in-place accumulation `M(x, y) += v`. -/
def addTo (M : Mat) (x y : Nat) (v : ℚ) : Mat :=
  fun a b => if a = x ∧ b = y then M a b + v else M a b

/-- The four dense blocks of a frontal matrix. -/
structure FrontBlocks where
  F11 : Mat
  F12 : Mat
  F21 : Mat
  F22 : Mat

/-- Modelled from the spec: `FrontalMatrix::upd_to_parent` (FrontalMatrix.hpp
is not under src/). Per the spec it "locates each child-update index either
within the parent's separator range or its update range": a child update
index below `paSepEnd` lands at `u - paSepBegin` (inside the parent's
separator block of size `paSepEnd - paSepBegin`), any other index lands at
`dim_sep` plus its position in the parent's own update list. -/
def updToParent (paSepBegin paSepEnd : Nat) (paUpd chUpd : List Nat) :
    List Nat :=
  chUpd.map (fun u =>
    if u < paSepEnd then u - paSepBegin
    else (paSepEnd - paSepBegin) + paUpd.indexOf u)

/-- Functional view of updToParent (entry `k` of the index list `I`). -/
def updToParentFun (paSepBegin paSepEnd : Nat) (paUpd chUpd : List Nat)
    (k : Nat) : Nat :=
  (updToParent paSepBegin paSepEnd paUpd chUpd).getD k 0

/-- Modelled from the spec: the `upd2sep` output of upd_to_parent, the number
of child update indices that land inside the parent's separator range. -/
def updToParentU2s (paSepEnd : Nat) (chUpd : List Nat) : Nat :=
  (chUpd.filter (fun u => u < paSepEnd)).length

/-- One iteration of the outer loop of extend_add_to_dense (loop variable
`c`): with `pc = I[c]`, rows `r < upd2sep` accumulate `F22_(r,c)` into
`paF11(I[r], pc)` / `paF12(I[r], pc - pdsep)` and rows `upd2sep ≤ r < dupd`
into `paF21(I[r] - pdsep, pc)` / `paF22(I[r] - pdsep, pc - pdsep)`, the
F11/F21 pair when `pc < pdsep` and the F12/F22 pair otherwise. -/
def eaColStep (I : Nat → Nat) (pdsep u2s dupd : Nat) (F22c : Mat)
    (st : FrontBlocks) (c : Nat) : FrontBlocks :=
  if I c < pdsep then
    let st1 := { st with
      F11 := (List.range u2s).foldl
        (fun M r => addTo M (I r) (I c) (F22c r c)) st.F11 }
    { st1 with
      F21 := (List.range' u2s (dupd - u2s)).foldl
        (fun M r => addTo M (I r - pdsep) (I c) (F22c r c)) st1.F21 }
  else
    let st1 := { st with
      F12 := (List.range u2s).foldl
        (fun M r => addTo M (I r) (I c - pdsep) (F22c r c)) st.F12 }
    { st1 with
      F22 := (List.range' u2s (dupd - u2s)).foldl
        (fun M r => addTo M (I r - pdsep) (I c - pdsep) (F22c r c)) st1.F22 }

/-- Embedding of FrontalMatrixDense::extend_add_to_dense: the doubly nested
accumulation loop over all `dupd × dupd` entries of the child's Schur
complement `F22c`, applied to the parent's four blocks. -/
def extendAddToDense (I : Nat → Nat) (pdsep u2s dupd : Nat) (F22c : Mat)
    (st : FrontBlocks) : FrontBlocks :=
  (List.range dupd).foldl (eaColStep I pdsep u2s dupd F22c) st

/-! ### HSS matrix structure and dense reconstruction
(HSSMatrix fields and HSSMatrix::dense_recursive, src/HSS/HSSMatrix.hpp
lines 281-371) -/

/-- Matrix product with explicit contraction length `k`
(embedding of the external BLAS gemm on blocks of inner dimension k). -/
def matMul (k : Nat) (A B : Mat) : Mat :=
  fun i j => ∑ l ∈ Finset.range k, A i l * B l j

/-- Transpose; over the real scalar embedding, `Trans::C` coincides with it. -/
def matTrans (A : Mat) : Mat := fun i j => A j i

/-- An HSS matrix node: a leaf owns its diagonal block `D` and dense
generators `Ud = U.dense()`, `Vd = V.dense()`; an internal node owns the
coupling blocks `B01`, `B10`, the transfer generators `Ud`, `Vd`
(of `c0.urank + c1.urank` rows) and two children. `urank`/`vrank` are
`U_rank`/`V_rank`. -/
inductive HSSTree where
  | leaf (rows cols urank vrank : Nat) (D Ud Vd : Mat)
  | node (urank vrank : Nat) (B01 B10 Ud Vd : Mat) (c0 c1 : HSSTree)

/-- Row count of the block spanned by a node. -/
def HSSTree.rows : HSSTree → Nat
  | .leaf r _ _ _ _ _ _ => r
  | .node _ _ _ _ _ _ c0 c1 => c0.rows + c1.rows

/-- Column count of the block spanned by a node. -/
def HSSTree.cols : HSSTree → Nat
  | .leaf _ c _ _ _ _ _ => c
  | .node _ _ _ _ _ _ c0 c1 => c0.cols + c1.cols

/-- U_rank of a node. -/
def HSSTree.urank : HSSTree → Nat
  | .leaf _ _ ur _ _ _ _ => ur
  | .node ur _ _ _ _ _ _ _ => ur

/-- V_rank of a node. -/
def HSSTree.vrank : HSSTree → Nat
  | .leaf _ _ _ vr _ _ _ => vr
  | .node _ vr _ _ _ _ _ _ => vr

/-- Embedding of HSSMatrix::dense_recursive. Returns the reconstructed block
(in node-local coordinates; the source writes it into the global matrix at
`w.offset`) together with the work fields `w.tmpU`, `w.tmpV`. A leaf copies
`_D` and sets `tmpU/tmpV` to the dense generators; an internal node fills
the off-diagonal quadrants as `tmpU0 · (B01 · tmpV1ᶜ)` and
`tmpU1 · (B10 · tmpV0ᶜ)` and, when not the root, aggregates
`tmpU = [tmpU0 · Ud(top); tmpU1 · Ud(bottom)]` (likewise `tmpV`). -/
def denseRec : HSSTree → Bool → Mat × Mat × Mat
  | .leaf _ _ _ _ D Ud Vd, _ => (D, Ud, Vd)
  | .node _ _ B01 B10 Ud Vd c0 c1, isroot =>
      let R0 := denseRec c0 false
      let R1 := denseRec c1 false
      let A01 := matMul c0.urank R0.2.1 (matMul c1.vrank B01 (matTrans R1.2.2))
      let A10 := matMul c1.urank R1.2.1 (matMul c0.vrank B10 (matTrans R0.2.2))
      let A : Mat := fun i j =>
        if i < c0.rows then
          if j < c0.cols then R0.1 i j else A01 i (j - c0.cols)
        else
          if j < c0.cols then A10 (i - c0.rows) j
          else R1.1 (i - c0.rows) (j - c0.cols)
      if isroot then (A, fun _ _ => 0, fun _ _ => 0)
      else
        (A,
         fun i j =>
           if i < c0.rows then matMul c0.urank R0.2.1 Ud i j
           else matMul c1.urank R1.2.1
             (fun a bq => Ud (c0.urank + a) bq) (i - c0.rows) j,
         fun i j =>
           if i < c0.cols then matMul c0.vrank R0.2.2 Vd i j
           else matMul c1.vrank R1.2.2
             (fun a bq => Vd (c0.vrank + a) bq) (i - c0.cols) j)

/-- Aggregated row generator of a subtree, following the spec: a leaf's
generator is `U` itself; an internal node stacks the children's aggregated
generators times the top/bottom parts of the transfer matrix. -/
def aggU : HSSTree → Mat
  | .leaf _ _ _ _ _ Ud _ => Ud
  | .node _ _ _ _ Ud _ c0 c1 => fun i j =>
      if i < c0.rows then matMul c0.urank (aggU c0) Ud i j
      else matMul c1.urank (aggU c1)
        (fun a bq => Ud (c0.urank + a) bq) (i - c0.rows) j

/-- Aggregated column generator of a subtree (the V side of aggU). -/
def aggV : HSSTree → Mat
  | .leaf _ _ _ _ _ _ Vd => Vd
  | .node _ _ _ _ _ Vd c0 c1 => fun i j =>
      if i < c0.cols then matMul c0.vrank (aggV c0) Vd i j
      else matMul c1.vrank (aggV c1)
        (fun a bq => Vd (c0.vrank + a) bq) (i - c0.cols) j

/-- Block reconstruction written from the spec's words: for a leaf the block
is `D`; for an internal node it is
`[[D00, U0·B01·V1ᵗ], [U1·B10·V0ᵗ, D11]]` recursively, the off-diagonal
blocks being the low-rank products of the child-aggregated generators with
the coupling blocks. -/
def specDense : HSSTree → Mat
  | .leaf _ _ _ _ D _ _ => D
  | .node _ _ B01 B10 _ _ c0 c1 => fun i j =>
      if i < c0.rows then
        if j < c0.cols then specDense c0 i j
        else matMul c1.vrank (matMul c0.urank (aggU c0) B01)
          (matTrans (aggV c1)) i (j - c0.cols)
      else
        if j < c0.cols then
          matMul c0.vrank (matMul c1.urank (aggU c1) B10)
            (matTrans (aggV c0)) (i - c0.rows) j
        else specDense c1 (i - c0.rows) (j - c0.cols)

/-- Embedding of the leaf branch of compress_recursive_ann
(src/HSS/HSSMatrix.compress.kernel.hpp lines 53-64): the index lists
`I = [offset.first .. offset.first + rows)`,
`J = [offset.second .. offset.second + cols)` are built and the element
oracle fills `_D(i, j) = A(I[i], J[j])`. -/
def compressLeafD (A : Mat) (ofr ofc rows cols : Nat) : Mat :=
  fun i j =>
    A (((List.range rows).map (fun i2 => i2 + ofr)).getD i 0)
      (((List.range cols).map (fun j2 => j2 + ofc)).getD j 0)

/-! ### Phase-2 elimination of a dense front
(FrontalMatrixDense::factor_phase2, runYang_Formula.sh 1107-1136)

The dense kernels LU / laswp / trsm / gemm are external BLAS/LAPACK
collaborators; gemm and the triangular solves are modelled exactly (matrix
product, forward/backward substitution), laswp as the sequence of row
transpositions given by the pivot list, and getrf as a parameter whose
LAPACK contract (P·A = L·U in packed form) is a hypothesis of the theorem. -/

/-- One row interchange `B(i, :) ↔ B(p, :)` as performed by laswp. -/
def rowSwap {n m : Nat} (i p : Fin n) (B : Matrix (Fin n) (Fin m) ℚ) :
    Matrix (Fin n) (Fin m) ℚ :=
  fun r c => B (Equiv.swap i p r) c

/-- Embedding of `laswp(piv, true)`: apply the pivot interchanges in forward
order (LAPACK returns the pivots as a list of transpositions). -/
def applySwaps {n m : Nat} (sw : List (Fin n × Fin n))
    (B : Matrix (Fin n) (Fin m) ℚ) : Matrix (Fin n) (Fin m) ℚ :=
  sw.foldl (fun B s => rowSwap s.1 s.2 B) B

/-- The permutation matrix effected by a pivot list. -/
def permMatrix {n : Nat} (sw : List (Fin n × Fin n)) :
    Matrix (Fin n) (Fin n) ℚ :=
  applySwaps sw 1

/-- Unit lower-triangular factor read from a packed getrf output
(trsm with Diag::U reads the strict lower triangle, unit diagonal). -/
def lowerUnitOf {n : Nat} (A : Matrix (Fin n) (Fin n) ℚ) :
    Matrix (Fin n) (Fin n) ℚ :=
  fun i j => if j < i then A i j else if i = j then 1 else 0

/-- Upper-triangular factor read from a packed getrf output
(trsm with Diag::N reads the upper triangle including the diagonal). -/
def upperOf {n : Nat} (A : Matrix (Fin n) (Fin n) ℚ) :
    Matrix (Fin n) (Fin n) ℚ :=
  fun i j => if i ≤ j then A i j else 0

/-- Modelled from the spec: the external solve-triangular primitive
`trsm(Side::L, UpLo::L, Diag::U)` — forward substitution, one entry. -/
def fwdSubAux {n m : Nat} (L : Matrix (Fin n) (Fin n) ℚ)
    (B : Matrix (Fin n) (Fin m) ℚ) (j : Fin m) (i : Fin n) : ℚ :=
  B i j - ∑ k ∈ (Finset.univ.filter (fun k : Fin n => k < i)).attach,
    L i k.1 * fwdSubAux L B j k.1
termination_by i.1
decreasing_by
  have hk := k.2
  simp only [Finset.mem_filter, Finset.mem_univ, true_and] at hk
  exact hk

/-- Solution X of `L · X = B` by forward substitution (L read with unit
diagonal). -/
def fwdSub {n m : Nat} (L : Matrix (Fin n) (Fin n) ℚ)
    (B : Matrix (Fin n) (Fin m) ℚ) : Matrix (Fin n) (Fin m) ℚ :=
  fun i j => fwdSubAux L B j i

/-- Modelled from the spec: the external solve-triangular primitive
`trsm(Side::R, UpLo::U, Diag::N)` — backward substitution from the left
column, one entry. -/
def backSubAux {n m : Nat} (U : Matrix (Fin n) (Fin n) ℚ)
    (B : Matrix (Fin m) (Fin n) ℚ) (r : Fin m) (c : Fin n) : ℚ :=
  (B r c - ∑ k ∈ (Finset.univ.filter (fun k : Fin n => k < c)).attach,
    backSubAux U B r k.1 * U k.1 c) / U c c
termination_by c.1
decreasing_by
  have hk := k.2
  simp only [Finset.mem_filter, Finset.mem_univ, true_and] at hk
  exact hk

/-- Solution X of `X · U = B` by substitution on columns. -/
def backSubR {n m : Nat} (U : Matrix (Fin n) (Fin n) ℚ)
    (B : Matrix (Fin m) (Fin n) ℚ) : Matrix (Fin m) (Fin n) ℚ :=
  fun r c => backSubAux U B r c

/-- The four blocks of a dense front, with dimension-typed indices. -/
structure DenseFront (ds du : Nat) where
  F11 : Matrix (Fin ds) (Fin ds) ℚ
  F12 : Matrix (Fin ds) (Fin du) ℚ
  F21 : Matrix (Fin du) (Fin ds) ℚ
  F22 : Matrix (Fin du) (Fin du) ℚ

/-- The tiny-pivot replacement of factor_phase2, on the packed factor. -/
def replaceTinyDiag {n : Nat} (thresh : ℚ) (A : Matrix (Fin n) (Fin n) ℚ) :
    Matrix (Fin n) (Fin n) ℚ :=
  fun i j =>
    if i = j ∧ |A i i| < thresh then (if A i i < 0 then -thresh else thresh)
    else A i j

/-- Embedding of FrontalMatrixDense::factor_phase2: when `dim_sep > 0`,
factor F11 with the external pivoted-LU kernel `lu` (returning the packed
factors and the pivot list), optionally replace tiny pivots; when also
`dim_upd > 0`, apply the pivots to F12 (laswp), lower-solve F12, upper-solve
F21, and update F22 by the single gemm `F22 - F21·F12` of the two solved
blocks. Returns the updated front and the stored pivots. -/
def factorPhase2 {ds du : Nat}
    (lu : Matrix (Fin ds) (Fin ds) ℚ →
      Matrix (Fin ds) (Fin ds) ℚ × List (Fin ds × Fin ds))
    (replaceTiny : Bool) (thresh : ℚ) (fr : DenseFront ds du) :
    DenseFront ds du × List (Fin ds × Fin ds) :=
  if 0 < ds then
    let r := lu fr.F11
    let F11f := if replaceTiny then replaceTinyDiag thresh r.1 else r.1
    if 0 < du then
      let F12a := applySwaps r.2 fr.F12
      let F12b := fwdSub (lowerUnitOf F11f) F12a
      let F21b := backSubR (upperOf F11f) fr.F21
      let F22b := fr.F22 - F21b * F12b
      (⟨F11f, F12b, F21b, F22b⟩, r.2)
    else (⟨F11f, fr.F12, fr.F21, fr.F22⟩, r.2)
  else (fr, [])

/-! ## Theorems -/

/-! ### Generic fold lemmas (used for the imperative loops) -/

/-- Folding a step function over a list leaves an observation unchanged when
every step in the list preserves it. -/
theorem foldl_obs_frame {σ γ : Type} (step : σ → Nat → σ) (obs : σ → γ)
    (l : List Nat) (s : σ)
    (h : ∀ s c, c ∈ l → obs (step s c) = obs s) :
    obs (l.foldl step s) = obs s := by
  induction l generalizing s with
  | nil => rfl
  | cons a t ih =>
      simp only [List.foldl_cons]
      rw [ih (step s a) (fun s c hc => h s c (List.mem_cons_of_mem a hc))]
      exact h s a (List.mem_cons_self a t)

/-- Folding a step function over a duplicate-free list applies an
observation-update exactly once when exactly one element of the list hits the
observation and every other element preserves it. -/
theorem foldl_obs_single {σ γ : Type} (step : σ → Nat → σ) (obs : σ → γ)
    (upd : γ → γ) (l : List Nat) (c0 : Nat) (s : σ)
    (hmem : c0 ∈ l) (hnd : l.Nodup)
    (hframe : ∀ s c, c ∈ l → c ≠ c0 → obs (step s c) = obs s)
    (hhit : ∀ s, obs (step s c0) = upd (obs s)) :
    obs (l.foldl step s) = upd (obs s) := by
  induction l generalizing s with
  | nil => cases hmem
  | cons a t ih =>
      rcases List.nodup_cons.mp hnd with ⟨hat, hndt⟩
      simp only [List.foldl_cons]
      by_cases hac : a = c0
      · subst hac
        have hnot : ∀ c, c ∈ t → c ≠ a := fun c hc he => hat (he ▸ hc)
        rw [foldl_obs_frame step obs t (step s a)
              (fun s c hc => hframe s c (List.mem_cons_of_mem a hc) (hnot c hc))]
        exact hhit s
      · have hmt : c0 ∈ t := by
          rcases List.mem_cons.mp hmem with h | h
          · exact absurd h.symm hac
          · exact h
        rw [ih (step s a) hmt hndt
              (fun s c hc hne => hframe s c (List.mem_cons_of_mem a hc) hne)]
        rw [hframe s a (List.mem_cons_self a t) hac]

/-! ### Claim C6: state monotonicity -/

/-- Helper: the state assignment at the tail of compress_recursive_ann never
lowers the state level. -/
theorem annStateUpdate_toLevel_le (lvl : Nat) (b : Bool) (st : HSSState) :
    st.toLevel ≤ (annStateUpdate lvl b st).toLevel := by
  cases st <;> cases b <;> cases lvl <;>
    simp [annStateUpdate, HSSState.toLevel]

/-- Claim C6: during a compression run, each node's state only advances along
UNTOUCHED → PARTIALLY_COMPRESSED → COMPRESSED; no step of
compress_recursive_ann moves any node's state (at any tree position `p`)
from a later state back to an earlier one, for every outcome `acc` of the
per-node accuracy checks. -/
theorem C6_compress_state_monotone (acc : List Bool → Bool) :
    ∀ (t : STree) (path : List Bool) (lvl : Nat) (p : List Bool),
      (stateAt t p).toLevel ≤
        (stateAt (compressRecAnn acc path lvl t) p).toLevel := by
  intro t
  induction t with
  | leaf st =>
      intro path lvl p
      cases p with
      | nil => exact annStateUpdate_toLevel_le lvl (acc path) st
      | cons b q => exact annStateUpdate_toLevel_le lvl (acc path) st
  | node st c0 c1 ih0 ih1 =>
      intro path lvl p
      simp only [compressRecAnn]
      split
      · cases p with
        | nil => exact annStateUpdate_toLevel_le lvl (acc path) st
        | cons b q =>
            cases b
            · exact ih0 (path ++ [false]) (lvl + 1) q
            · exact ih1 (path ++ [true]) (lvl + 1) q
      · cases p with
        | nil => exact le_refl _
        | cons b q =>
            cases b
            · exact ih0 (path ++ [false]) (lvl + 1) q
            · exact ih1 (path ++ [true]) (lvl + 1) q

/-! ### Claim C4: compression acceptance -/

/-- Claim C4, corrected. At a non-root node (`lvl ≠ 0`) that is not already
compressed, the post-check assignment of compress_recursive_ann
(runYang_Formula.sh lines 1556-1570) marks the node COMPRESSED iff
compute_U_V_bases_ann accepted, which happens iff `d ≥ cols` or
`d ≥ max_rank` or the computed rank `r` satisfies `r + p < d` — not iff
`r + p < d ∧ r ≤ max_rank` as claimed; on rejection the state is unchanged
and the failure shows only through the is_compressed flag (no exception). -/
theorem C4_accept_iff_amended (cols maxRank p d r : Int) (lvl : Nat)
    (st : HSSState) (hlvl : lvl ≠ 0) (hst : st ≠ HSSState.COMPRESSED) :
    (annStateUpdate lvl (computeUVBasesAnnAccurate cols maxRank p d r r) st
        = HSSState.COMPRESSED ↔ (d ≥ cols ∨ d ≥ maxRank ∨ r + p < d))
    ∧ (computeUVBasesAnnAccurate cols maxRank p d r r = false →
        annStateUpdate lvl (computeUVBasesAnnAccurate cols maxRank p d r r) st
          = st
        ∧ isCompressedState
            (annStateUpdate lvl
              (computeUVBasesAnnAccurate cols maxRank p d r r) st) = false) := by
  have hcond : (computeUVBasesAnnAccurate cols maxRank p d r r = true)
      ↔ (d ≥ cols ∨ d ≥ maxRank ∨ r + p < d) := by
    unfold computeUVBasesAnnAccurate
    simp [or_assoc]
  constructor
  · unfold annStateUpdate
    rw [if_neg hlvl]
    by_cases hb : computeUVBasesAnnAccurate cols maxRank p d r r = true
    · rw [if_pos hb]
      exact iff_of_true rfl (hcond.mp hb)
    · rw [if_neg hb]
      exact iff_of_false hst (fun hor => hb (hcond.mpr hor))
  · intro hfail
    unfold annStateUpdate
    rw [if_neg hlvl, if_neg (by rw [hfail]; exact Bool.false_ne_true)]
    refine ⟨rfl, ?_⟩
    simp [isCompressedState, hst]

/-- Claim C4, counterexample to the claim as stated: with node cols = 100,
max_rank = 5, oversampling p = 2, d = 5 samples and computed rank r = 4,
the code marks the node COMPRESSED (because `d ≥ max_rank`) although
`r + oversampling < d` is false while `r ≤ max_rank` holds, so "COMPRESSED
iff r + oversampling < d and r ≤ max_rank" fails. -/
theorem C4_accept_counterexample :
    annStateUpdate 1 (computeUVBasesAnnAccurate 100 5 2 5 4 4)
        HSSState.UNTOUCHED = HSSState.COMPRESSED
    ∧ ¬(((4 : Int) + 2 < 5) ∧ ((4 : Int) ≤ 5)) := by decide

/-- Witness for C4_accept_iff_amended: at the counterexample's numbers the
amended iff concretely evaluates (the node is marked COMPRESSED and
`d ≥ max_rank` holds). -/
theorem C4_accept_iff_amended_witness :
    annStateUpdate 1 (computeUVBasesAnnAccurate 100 5 2 5 4 4)
        HSSState.PARTIALLY_COMPRESSED = HSSState.COMPRESSED
    ∧ ((5 : Int) ≥ 100 ∨ (5 : Int) ≥ 5 ∨ (4 : Int) + 2 < 5) :=
  ⟨((C4_accept_iff_amended 100 5 2 5 4 1 HSSState.PARTIALLY_COMPRESSED
      (by decide) (by decide)).1).mpr (Or.inr (Or.inl (by decide))),
    Or.inr (Or.inl (by decide))⟩

/-! ### Claim C9: kernel diagonal regularization -/

/-- Claim C9: Kernel::eval returns the kernel function value plus lambda
exactly on the diagonal, Kernel::operator() fills B(i,j) = eval(I[i], J[j]),
hence the matrix handed to HSS compression is the kernel matrix plus lambda
times the identity. -/
theorem C9_kernel_regularization (kf : Nat → Nat → ℚ) (lambda : ℚ) :
    (∀ i, kernelEval kf lambda i i = kf i i + lambda)
    ∧ (∀ i j, i ≠ j → kernelEval kf lambda i j = kf i j)
    ∧ (∀ I J i j, kernelExtract kf lambda I J i j
        = kernelEval kf lambda (I.getD i 0) (J.getD j 0))
    ∧ (∀ i j, kernelEval kf lambda i j
        = kf i j + lambda * (if i = j then 1 else 0)) := by
  refine ⟨fun i => by simp [kernelEval],
    fun i j h => by simp [kernelEval, h],
    fun I J i j => rfl,
    fun i j => ?_⟩
  by_cases h : i = j <;> simp [kernelEval, h]

/-- Witness for C9_kernel_regularization at a concrete kernel function and
concrete indices. -/
theorem C9_kernel_regularization_witness :
    kernelEval (fun i j => ((i * 10 + j : Nat) : ℚ)) 7 2 2 = 22 + 7
    ∧ kernelEval (fun i j => ((i * 10 + j : Nat) : ℚ)) 7 1 2 = 12 := by
  have h := C9_kernel_regularization (fun i j => ((i * 10 + j : Nat) : ℚ)) 7
  constructor
  · rw [h.1 2]; norm_num
  · rw [h.2.1 1 2 (by decide)]; norm_num

/-! ### Claim C10: leaf-range partition across MPI ranks -/

/-- Helper: closed form of the range start. -/
theorem leafsRangeStart_eq (n p rank : Nat) :
    leafsRangeStart n p rank =
      if rank < n % p then rank * (n / p) + rank
      else rank * (n / p) + n % p := by
  unfold leafsRangeStart getLeafsRange
  split <;> rfl

/-- Helper: closed form of the range end. -/
theorem leafsRangeEnd_eq (n p rank : Nat) :
    leafsRangeEnd n p rank =
      if rank < n % p then rank * (n / p) + rank + (n / p + 1)
      else rank * (n / p) + n % p + n / p := by
  unfold leafsRangeEnd getLeafsRange
  split <;> rfl

/-- Helper: each range's end is the next range's start (contiguity). -/
theorem leafsRange_contiguous (n p rank : Nat) :
    leafsRangeEnd n p rank = leafsRangeStart n p (rank + 1) := by
  rw [leafsRangeEnd_eq, leafsRangeStart_eq]
  by_cases h1 : rank < n % p
  · by_cases h2 : rank + 1 < n % p
    · rw [if_pos h1, if_pos h2]; ring
    · have hrem : n % p = rank + 1 := by omega
      rw [if_pos h1, if_neg h2, hrem]; ring
  · have h2 : ¬(rank + 1 < n % p) := by omega
    rw [if_neg h1, if_neg h2]; ring

/-- Helper: each range's end is its start plus its length. -/
theorem leafsRange_len (n p rank : Nat) :
    leafsRangeEnd n p rank =
      leafsRangeStart n p rank + (if rank < n % p then n / p + 1 else n / p) := by
  rw [leafsRangeEnd_eq, leafsRangeStart_eq]
  by_cases h : rank < n % p
  · rw [if_pos h, if_pos h, if_pos h]
  · rw [if_neg h, if_neg h, if_neg h]

/-- Helper: the start sequence is monotone in the rank. -/
theorem leafsRangeStart_mono (n p : Nat) : Monotone (leafsRangeStart n p) := by
  apply monotone_nat_of_le_succ
  intro r
  rw [← leafsRange_contiguous, leafsRange_len]
  exact Nat.le_add_right _ _

/-- Helper: the virtual range start at rank = p is exactly n. -/
theorem leafsRangeStart_p (n p : Nat) (hp : 1 ≤ p) :
    leafsRangeStart n p p = n := by
  rw [leafsRangeStart_eq]
  have hrem : n % p < p := Nat.mod_lt n hp
  rw [if_neg (by omega)]
  have := Nat.div_add_mod n p
  calc p * (n / p) + n % p = n := this

/-- Helper: every k below a start is inside some earlier range. -/
theorem leafsRange_mem_exists (n p : Nat) :
    ∀ m k, k < leafsRangeStart n p m →
      ∃ r, r < m ∧ leafsRangeStart n p r ≤ k ∧ k < leafsRangeEnd n p r := by
  intro m
  induction m with
  | zero =>
      intro k hk
      rw [leafsRangeStart_eq] at hk
      simp only [Nat.zero_mul, Nat.zero_add] at hk
      exfalso
      by_cases h : 0 < n % p
      · rw [if_pos h] at hk
        omega
      · rw [if_neg h] at hk
        omega
  | succ m ih =>
      intro k hk
      by_cases h : k < leafsRangeStart n p m
      · obtain ⟨r, hr, h1, h2⟩ := ih k h
        exact ⟨r, Nat.lt_succ_of_lt hr, h1, h2⟩
      · exact ⟨m, Nat.lt_succ_self m, by omega,
          by rw [leafsRange_contiguous]; exact hk⟩

/-- Claim C10: for n ≥ 0 and p ≥ 1, the ranges of getLeafsRange for ranks
0..p-1 start at 0, are contiguous (each end equals the next start), end at n,
have length ⌊n/p⌋ + 1 for the first n mod p ranks and ⌊n/p⌋ for the rest, and
every index in [0, n) lies in the range of exactly one rank. -/
theorem C10_leafs_range_partition (n p : Nat) (hp : 1 ≤ p) :
    leafsRangeStart n p 0 = 0
    ∧ (∀ rank, leafsRangeEnd n p rank = leafsRangeStart n p (rank + 1))
    ∧ leafsRangeEnd n p (p - 1) = n
    ∧ (∀ rank, rank < n % p →
        leafsRangeEnd n p rank = leafsRangeStart n p rank + (n / p + 1))
    ∧ (∀ rank, n % p ≤ rank →
        leafsRangeEnd n p rank = leafsRangeStart n p rank + n / p)
    ∧ (∀ k, k < n → ∃! rank, rank < p ∧
        leafsRangeStart n p rank ≤ k ∧ k < leafsRangeEnd n p rank) := by
  refine ⟨?_, leafsRange_contiguous n p, ?_, ?_, ?_, ?_⟩
  · rw [leafsRangeStart_eq]
    split
    · simp
    · simp only [Nat.zero_mul, Nat.zero_add]
      omega
  · rw [leafsRange_contiguous]
    have : p - 1 + 1 = p := by omega
    rw [this, leafsRangeStart_p n p hp]
  · intro rank h
    rw [leafsRange_len, if_pos h]
  · intro rank h
    rw [leafsRange_len, if_neg (by omega)]
  · intro k hk
    have hks : k < leafsRangeStart n p p := by
      rw [leafsRangeStart_p n p hp]; exact hk
    obtain ⟨r, hr, h1, h2⟩ := leafsRange_mem_exists n p p k hks
    refine ⟨r, ⟨hr, h1, h2⟩, ?_⟩
    intro y ⟨hy, hy1, hy2⟩
    by_contra hne
    rcases Nat.lt_or_ge y r with hlt | hge
    · have : leafsRangeEnd n p y ≤ leafsRangeStart n p r := by
        rw [leafsRange_contiguous]
        exact leafsRangeStart_mono n p hlt
      omega
    · have hlt : r < y := by omega
      have : leafsRangeEnd n p r ≤ leafsRangeStart n p y := by
        rw [leafsRange_contiguous]
        exact leafsRangeStart_mono n p hlt
      omega

/-- Witness for C10_leafs_range_partition at n = 10, p = 3: the three ranges
are [0,4), [4,7), [7,10). -/
theorem C10_leafs_range_partition_witness :
    leafsRangeStart 10 3 0 = 0 ∧ leafsRangeEnd 10 3 2 = 10 := by
  have h := C10_leafs_range_partition 10 3 (by norm_num)
  exact ⟨h.1, h.2.2.1⟩

/-! ### Claim C5: tiny-pivot replacement -/

/-- Helper: pointwise characterization of the replace_tiny_pivots loop on the
diagonal entries it visits. -/
theorem replaceTinyPivots_apply (thresh : ℚ) (rows : Nat) (d : Nat → ℚ)
    (i : Nat) (hi : i < rows) :
    replaceTinyPivots thresh rows d i =
      if |d i| < thresh then (if d i < 0 then -thresh else thresh)
      else d i := by
  unfold replaceTinyPivots
  refine foldl_obs_single _ (fun dd => dd i)
    (fun x => if |x| < thresh then (if x < 0 then -thresh else thresh) else x)
    (List.range rows) i d (List.mem_range.mpr hi) (List.nodup_range _)
    ?_ ?_
  · intro s c _ hne
    by_cases h : |s c| < thresh
    · simp only [if_pos h]
      exact Function.update_noteq (Ne.symm hne) _ s
    · simp only [if_neg h]
  · intro s
    by_cases h : |s i| < thresh
    · simp only [if_pos h, Function.update_same]
    · simp only [if_neg h]

/-- Claim C5: with the replace-tiny-pivots option, after LU of F11 every
diagonal entry of magnitude below thresh is replaced by a value of magnitude
exactly thresh whose sign matches the entry's sign (its real part, the scalar
being real; a zero entry gets +thresh), entries of magnitude at least thresh
are unchanged, and afterwards every visited diagonal entry has magnitude at
least thresh. -/
theorem C5_tiny_pivot_replacement (thresh : ℚ) (rows : Nat) (d : Nat → ℚ)
    (hth : 0 < thresh) :
    (∀ i, i < rows → |d i| < thresh →
        replaceTinyPivots thresh rows d i
          = (if d i < 0 then -thresh else thresh)
        ∧ |replaceTinyPivots thresh rows d i| = thresh)
    ∧ (∀ i, i < rows → |d i| < thresh → d i < 0 →
        replaceTinyPivots thresh rows d i < 0)
    ∧ (∀ i, i < rows → |d i| < thresh → 0 < d i →
        0 < replaceTinyPivots thresh rows d i)
    ∧ (∀ i, i < rows → thresh ≤ |d i| →
        replaceTinyPivots thresh rows d i = d i)
    ∧ (∀ i, i < rows → thresh ≤ |replaceTinyPivots thresh rows d i|) := by
  have key := replaceTinyPivots_apply thresh rows d
  refine ⟨?_, ?_, ?_, ?_, ?_⟩
  · intro i hi habs
    rw [key i hi, if_pos habs]
    refine ⟨rfl, ?_⟩
    by_cases hneg : d i < 0
    · rw [if_pos hneg, abs_neg, abs_of_pos hth]
    · rw [if_neg hneg, abs_of_pos hth]
  · intro i hi habs hneg
    rw [key i hi, if_pos habs, if_pos hneg]
    linarith
  · intro i hi habs hpos
    rw [key i hi, if_pos habs, if_neg (by linarith)]
    exact hth
  · intro i hi habs
    rw [key i hi, if_neg (not_lt.mpr habs)]
  · intro i hi
    rw [key i hi]
    by_cases habs : |d i| < thresh
    · rw [if_pos habs]
      by_cases hneg : d i < 0
      · rw [if_pos hneg, abs_neg, abs_of_pos hth]
      · rw [if_neg hneg, abs_of_pos hth]
    · rw [if_neg habs]
      exact not_lt.mp habs

/-- Witness for C5_tiny_pivot_replacement: thresh = 1, diagonal
(-1/2, 5, 0): the small negative entry becomes -1, the large entry stays 5,
the zero entry becomes +1. -/
theorem C5_tiny_pivot_replacement_witness :
    replaceTinyPivots 1 3 (fun i => if i = 0 then (-1/2 : ℚ) else if i = 1 then 5 else 0) 0 = -1
    ∧ replaceTinyPivots 1 3 (fun i => if i = 0 then (-1/2 : ℚ) else if i = 1 then 5 else 0) 1 = 5 := by
  have h := C5_tiny_pivot_replacement 1 3
    (fun i => if i = 0 then (-1/2 : ℚ) else if i = 1 then 5 else 0)
    (by norm_num)
  constructor
  · have h0 := (h.1 0 (by norm_num) (by norm_num [abs_lt])).1
    rw [h0]
    norm_num
  · exact h.2.2.2.1 1 (by norm_num) (by norm_num [abs_le])

/-! ### Claim C1: extend-add quadrant mapping -/

/-- Helper: reading an accumulation at its own cell. -/
theorem addTo_same (M : Mat) (x y : Nat) (v : ℚ) :
    addTo M x y v x y = M x y + v := if_pos ⟨rfl, rfl⟩

/-- Helper: reading an accumulation at any other cell. -/
theorem addTo_other (M : Mat) (x y : Nat) (v : ℚ) (a bq : Nat)
    (h : a ≠ x ∨ bq ≠ y) : addTo M x y v a bq = M a bq := by
  unfold addTo
  rw [if_neg (by tauto)]

/-- Helper: entry k of the upd_to_parent index list, in closed form. -/
theorem updToParentFun_eq (b e : Nat) (paUpd chUpd : List Nat) (k : Nat)
    (hk : k < chUpd.length) :
    updToParentFun b e paUpd chUpd k =
      if chUpd.getD k 0 < e then chUpd.getD k 0 - b
      else (e - b) + paUpd.indexOf (chUpd.getD k 0) := by
  unfold updToParentFun updToParent
  rw [List.getD_eq_getElem _ _ (by simpa using hk), List.getElem_map,
    List.getD_eq_getElem _ _ hk]

/-- Helper: entries read through getD are members. -/
theorem getD_mem_of_lt (l : List Nat) (k : Nat) (hk : k < l.length) :
    l.getD k 0 ∈ l := by
  rw [List.getD_eq_getElem _ _ hk]
  exact List.getElem_mem hk

/-- Helper: a strictly sorted list read through getD is strictly monotone. -/
theorem getD_lt_getD_of_pairwise (l : List Nat)
    (h : List.Pairwise (· < ·) l) (i j : Nat) (hij : i < j)
    (hj : j < l.length) : l.getD i 0 < l.getD j 0 := by
  rw [List.getD_eq_getElem _ _ (lt_trans hij hj), List.getD_eq_getElem _ _ hj]
  exact List.pairwise_iff_get.mp h ⟨i, lt_trans hij hj⟩ ⟨j, hj⟩ hij

/-- Helper: the upd_to_parent map is injective below the child update count,
given a strictly sorted child update list whose members lie in the parent's
separator range or update list (spec invariant: the child's update indices
are a subset of the parent's sep ∪ upd). -/
theorem updToParentFun_inj (b e : Nat) (paUpd chUpd : List Nat)
    (hch : List.Pairwise (· < ·) chUpd)
    (hmem : ∀ u ∈ chUpd, (b ≤ u ∧ u < e) ∨ u ∈ paUpd)
    (hhi : ∀ u ∈ paUpd, e ≤ u) :
    ∀ k l, k < chUpd.length → l < chUpd.length →
      updToParentFun b e paUpd chUpd k = updToParentFun b e paUpd chUpd l →
      k = l := by
  have main : ∀ k l, k < l → l < chUpd.length →
      updToParentFun b e paUpd chUpd k ≠ updToParentFun b e paUpd chUpd l := by
    intro k l hkl hl
    have hk : k < chUpd.length := lt_trans hkl hl
    have huv : chUpd.getD k 0 < chUpd.getD l 0 :=
      getD_lt_getD_of_pairwise chUpd hch k l hkl hl
    have hmk := hmem _ (getD_mem_of_lt chUpd k hk)
    have hml := hmem _ (getD_mem_of_lt chUpd l hl)
    rw [updToParentFun_eq b e paUpd chUpd k hk,
      updToParentFun_eq b e paUpd chUpd l hl]
    by_cases h1 : chUpd.getD k 0 < e
    · have hbk : b ≤ chUpd.getD k 0 := by
        rcases hmk with ⟨h, _⟩ | h
        · exact h
        · exact absurd h1 (not_lt.mpr (hhi _ h))
      by_cases h2 : chUpd.getD l 0 < e
      · have hbl : b ≤ chUpd.getD l 0 := by
          rcases hml with ⟨h, _⟩ | h
          · exact h
          · exact absurd h2 (not_lt.mpr (hhi _ h))
        rw [if_pos h1, if_pos h2]
        omega
      · rw [if_pos h1, if_neg h2]
        omega
    · have h2 : ¬(chUpd.getD l 0 < e) := by omega
      rw [if_neg h1, if_neg h2]
      intro heq
      have hpk : chUpd.getD k 0 ∈ paUpd := by
        rcases hmk with ⟨_, h⟩ | h
        · exact absurd h h1
        · exact h
      have hpl : chUpd.getD l 0 ∈ paUpd := by
        rcases hml with ⟨_, h⟩ | h
        · exact absurd h h2
        · exact h
      have hidx : paUpd.indexOf (chUpd.getD k 0)
          = paUpd.indexOf (chUpd.getD l 0) := by omega
      have := (List.indexOf_inj hpk hpl).mp hidx
      omega
  intro k l hk hl heq
  rcases Nat.lt_trichotomy k l with h | h | h
  · exact absurd heq (main k l h hl)
  · exact h
  · exact absurd heq.symm (main l k h hk)

/-- Helper: the child update indices landing in the parent separator range
form a prefix of the (sorted) child update list, of length upd2sep. -/
theorem u2s_count_iff (e : Nat) (chUpd : List Nat)
    (hch : List.Pairwise (· < ·) chUpd) :
    ∀ k, k < chUpd.length →
      (k < updToParentU2s e chUpd ↔ chUpd.getD k 0 < e) := by
  induction chUpd with
  | nil =>
      intro k hk
      simp at hk
  | cons u t ih =>
      rcases List.pairwise_cons.mp hch with ⟨hu, ht⟩
      intro k hk
      unfold updToParentU2s
      by_cases hue : u < e
      · rw [List.filter_cons_of_pos (by simpa using hue)]
        cases k with
        | zero =>
            simp only [List.length_cons, List.getD_cons_zero]
            exact iff_of_true (Nat.succ_pos _) hue
        | succ k =>
            simp only [List.length_cons, List.getD_cons_succ,
              Nat.succ_lt_succ_iff]
            exact ih ht k (by simpa using hk)
      · rw [List.filter_cons_of_neg (by simpa using hue)]
        have hft : t.filter (fun u => decide (u < e)) = [] := by
          rw [List.filter_eq_nil_iff]
          intro a ha
          simp only [decide_eq_true_eq]
          have := hu a ha
          omega
        rw [hft]
        simp only [List.length_nil]
        cases k with
        | zero =>
            simp only [List.getD_cons_zero]
            exact iff_of_false (by omega) hue
        | succ k =>
            simp only [List.getD_cons_succ]
            have hkt : k < t.length := by simpa using hk
            have : u < t.getD k 0 := hu _ (getD_mem_of_lt t k hkt)
            exact iff_of_false (by omega) (by omega)

/-- Helper: the upd2sep count never exceeds the child update count. -/
theorem u2s_le_length (e : Nat) (chUpd : List Nat) :
    updToParentU2s e chUpd ≤ chUpd.length :=
  List.length_filter_le _ _

/-- Helper: a mapped index lands below the parent separator size exactly for
the prefix counted by upd2sep. -/
theorem updToParentFun_lt_iff (b e : Nat) (paUpd chUpd : List Nat)
    (hch : List.Pairwise (· < ·) chUpd)
    (hmem : ∀ u ∈ chUpd, (b ≤ u ∧ u < e) ∨ u ∈ paUpd)
    (hhi : ∀ u ∈ paUpd, e ≤ u) :
    ∀ k, k < chUpd.length →
      (k < updToParentU2s e chUpd ↔ updToParentFun b e paUpd chUpd k < e - b) := by
  intro k hk
  rw [u2s_count_iff e chUpd hch k hk, updToParentFun_eq b e paUpd chUpd k hk]
  by_cases h1 : chUpd.getD k 0 < e
  · rw [if_pos h1]
    have hbk : b ≤ chUpd.getD k 0 := by
      rcases hmem _ (getD_mem_of_lt chUpd k hk) with ⟨h, _⟩ | h
      · exact h
      · exact absurd h1 (not_lt.mpr (hhi _ h))
    exact iff_of_true h1 (by omega)
  · rw [if_neg h1]
    exact iff_of_false h1 (by omega)

/-- Helper: the column step in the `pc < pdsep` branch updates F11 and F21
and leaves F12 and F22 alone. -/
theorem eaColStep_pos (I : Nat → Nat) (pdsep u2s dupd : Nat) (F22c : Mat)
    (s : FrontBlocks) (c : Nat) (h : I c < pdsep) :
    eaColStep I pdsep u2s dupd F22c s c =
      { s with
        F11 := (List.range u2s).foldl
          (fun M r => addTo M (I r) (I c) (F22c r c)) s.F11,
        F21 := (List.range' u2s (dupd - u2s)).foldl
          (fun M r => addTo M (I r - pdsep) (I c) (F22c r c)) s.F21 } := by
  unfold eaColStep
  rw [if_pos h]

/-- Helper: the column step in the `pc ≥ pdsep` branch updates F12 and F22
and leaves F11 and F21 alone. -/
theorem eaColStep_neg (I : Nat → Nat) (pdsep u2s dupd : Nat) (F22c : Mat)
    (s : FrontBlocks) (c : Nat) (h : ¬(I c < pdsep)) :
    eaColStep I pdsep u2s dupd F22c s c =
      { s with
        F12 := (List.range u2s).foldl
          (fun M r => addTo M (I r) (I c - pdsep) (F22c r c)) s.F12,
        F22 := (List.range' u2s (dupd - u2s)).foldl
          (fun M r => addTo M (I r - pdsep) (I c - pdsep) (F22c r c)) s.F22 } := by
  unfold eaColStep
  rw [if_neg h]

/-- Helper: F11 accumulation cell for a child entry mapped to the
separator-separator quadrant. -/
theorem eaF11_hit (I : Nat → Nat) (pdsep u2s dupd : Nat) (F22c : Mat)
    (st : FrontBlocks) (hu2s : u2s ≤ dupd)
    (hinj : ∀ k l, k < dupd → l < dupd → I k = I l → k = l)
    (hchar : ∀ k, k < dupd → (k < u2s ↔ I k < pdsep))
    (r0 c0 : Nat) (hr : r0 < dupd) (hc : c0 < dupd)
    (hr1 : I r0 < pdsep) (hc1 : I c0 < pdsep) :
    (extendAddToDense I pdsep u2s dupd F22c st).F11 (I r0) (I c0)
      = st.F11 (I r0) (I c0) + F22c r0 c0 := by
  unfold extendAddToDense
  refine foldl_obs_single _ (fun s => s.F11 (I r0) (I c0))
    (fun q => q + F22c r0 c0) (List.range dupd) c0 st
    (List.mem_range.mpr hc) (List.nodup_range _) ?_ ?_
  · intro s c hcm hne
    have hcd : c < dupd := List.mem_range.mp hcm
    by_cases h : I c < pdsep
    · rw [eaColStep_pos I pdsep u2s dupd F22c s c h]
      show (List.range u2s).foldl
        (fun M r => addTo M (I r) (I c) (F22c r c)) s.F11 (I r0) (I c0)
        = s.F11 (I r0) (I c0)
      refine foldl_obs_frame (fun M r => addTo M (I r) (I c) (F22c r c))
        (fun M => M (I r0) (I c0)) (List.range u2s) s.F11 ?_
      intro M r _
      refine addTo_other _ _ _ _ _ _ (Or.inr ?_)
      intro he
      exact hne (hinj c c0 hcd hc he.symm)
    · rw [eaColStep_neg I pdsep u2s dupd F22c s c h]
  · intro s
    rw [eaColStep_pos I pdsep u2s dupd F22c s c0 hc1]
    show (List.range u2s).foldl _ s.F11 (I r0) (I c0) = _
    refine foldl_obs_single _ (fun M => M (I r0) (I c0))
      (fun q => q + F22c r0 c0) (List.range u2s) r0 s.F11
      (List.mem_range.mpr ((hchar r0 hr).mpr hr1)) (List.nodup_range _) ?_ ?_
    · intro M r hrm hne
      have hrd : r < dupd := lt_of_lt_of_le (List.mem_range.mp hrm) hu2s
      refine addTo_other _ _ _ _ _ _ (Or.inl ?_)
      intro he
      exact hne (hinj r r0 hrd hr he.symm)
    · intro M
      exact addTo_same M (I r0) (I c0) (F22c r0 c0)

/-- Helper: F21 accumulation cell for a child entry mapped to the
update-separator quadrant. -/
theorem eaF21_hit (I : Nat → Nat) (pdsep u2s dupd : Nat) (F22c : Mat)
    (st : FrontBlocks) (hu2s : u2s ≤ dupd)
    (hinj : ∀ k l, k < dupd → l < dupd → I k = I l → k = l)
    (hchar : ∀ k, k < dupd → (k < u2s ↔ I k < pdsep))
    (r0 c0 : Nat) (hr : r0 < dupd) (hc : c0 < dupd)
    (hr1 : pdsep ≤ I r0) (hc1 : I c0 < pdsep) :
    (extendAddToDense I pdsep u2s dupd F22c st).F21 (I r0 - pdsep) (I c0)
      = st.F21 (I r0 - pdsep) (I c0) + F22c r0 c0 := by
  have hr0u : u2s ≤ r0 := by
    by_contra hcon
    have := (hchar r0 hr).mp (by omega)
    omega
  unfold extendAddToDense
  refine foldl_obs_single _ (fun s => s.F21 (I r0 - pdsep) (I c0))
    (fun q => q + F22c r0 c0) (List.range dupd) c0 st
    (List.mem_range.mpr hc) (List.nodup_range _) ?_ ?_
  · intro s c hcm hne
    have hcd : c < dupd := List.mem_range.mp hcm
    by_cases h : I c < pdsep
    · rw [eaColStep_pos I pdsep u2s dupd F22c s c h]
      show (List.range' u2s (dupd - u2s)).foldl
        (fun M r => addTo M (I r - pdsep) (I c) (F22c r c)) s.F21
        (I r0 - pdsep) (I c0)
        = s.F21 (I r0 - pdsep) (I c0)
      refine foldl_obs_frame (fun M r => addTo M (I r - pdsep) (I c) (F22c r c))
        (fun M => M (I r0 - pdsep) (I c0)) (List.range' u2s (dupd - u2s)) s.F21 ?_
      intro M r _
      refine addTo_other _ _ _ _ _ _ (Or.inr ?_)
      intro he
      exact hne (hinj c c0 hcd hc he.symm)
    · rw [eaColStep_neg I pdsep u2s dupd F22c s c h]
  · intro s
    rw [eaColStep_pos I pdsep u2s dupd F22c s c0 hc1]
    show (List.range' u2s (dupd - u2s)).foldl _ s.F21 (I r0 - pdsep) (I c0) = _
    refine foldl_obs_single _ (fun M => M (I r0 - pdsep) (I c0))
      (fun q => q + F22c r0 c0) (List.range' u2s (dupd - u2s)) r0 s.F21
      (by rw [List.mem_range'_1]; omega) (List.nodup_range' _ _) ?_ ?_
    · intro M r hrm hne
      rw [List.mem_range'_1] at hrm
      have hrd : r < dupd := by omega
      have hru : pdsep ≤ I r := by
        have := (hchar r hrd)
        omega
      refine addTo_other _ _ _ _ _ _ (Or.inl ?_)
      intro he
      have : I r = I r0 := by omega
      exact hne (hinj r r0 hrd hr this)
    · intro M
      exact addTo_same M (I r0 - pdsep) (I c0) (F22c r0 c0)

/-- Helper: F12 accumulation cell for a child entry mapped to the
separator-update quadrant. -/
theorem eaF12_hit (I : Nat → Nat) (pdsep u2s dupd : Nat) (F22c : Mat)
    (st : FrontBlocks) (hu2s : u2s ≤ dupd)
    (hinj : ∀ k l, k < dupd → l < dupd → I k = I l → k = l)
    (hchar : ∀ k, k < dupd → (k < u2s ↔ I k < pdsep))
    (r0 c0 : Nat) (hr : r0 < dupd) (hc : c0 < dupd)
    (hr1 : I r0 < pdsep) (hc1 : pdsep ≤ I c0) :
    (extendAddToDense I pdsep u2s dupd F22c st).F12 (I r0) (I c0 - pdsep)
      = st.F12 (I r0) (I c0 - pdsep) + F22c r0 c0 := by
  unfold extendAddToDense
  refine foldl_obs_single _ (fun s => s.F12 (I r0) (I c0 - pdsep))
    (fun q => q + F22c r0 c0) (List.range dupd) c0 st
    (List.mem_range.mpr hc) (List.nodup_range _) ?_ ?_
  · intro s c hcm hne
    have hcd : c < dupd := List.mem_range.mp hcm
    by_cases h : I c < pdsep
    · rw [eaColStep_pos I pdsep u2s dupd F22c s c h]
    · rw [eaColStep_neg I pdsep u2s dupd F22c s c h]
      show (List.range u2s).foldl
        (fun M r => addTo M (I r) (I c - pdsep) (F22c r c)) s.F12
        (I r0) (I c0 - pdsep)
        = s.F12 (I r0) (I c0 - pdsep)
      refine foldl_obs_frame (fun M r => addTo M (I r) (I c - pdsep) (F22c r c))
        (fun M => M (I r0) (I c0 - pdsep)) (List.range u2s) s.F12 ?_
      intro M r _
      refine addTo_other _ _ _ _ _ _ (Or.inr ?_)
      intro he
      have : I c = I c0 := by omega
      exact hne (hinj c c0 hcd hc this)
  · intro s
    rw [eaColStep_neg I pdsep u2s dupd F22c s c0 (by omega)]
    show (List.range u2s).foldl _ s.F12 (I r0) (I c0 - pdsep) = _
    refine foldl_obs_single _ (fun M => M (I r0) (I c0 - pdsep))
      (fun q => q + F22c r0 c0) (List.range u2s) r0 s.F12
      (List.mem_range.mpr ((hchar r0 hr).mpr hr1)) (List.nodup_range _) ?_ ?_
    · intro M r hrm hne
      have hrd : r < dupd := lt_of_lt_of_le (List.mem_range.mp hrm) hu2s
      refine addTo_other _ _ _ _ _ _ (Or.inl ?_)
      intro he
      exact hne (hinj r r0 hrd hr he.symm)
    · intro M
      exact addTo_same M (I r0) (I c0 - pdsep) (F22c r0 c0)

/-- Helper: F22 accumulation cell for a child entry mapped to the
update-update quadrant. -/
theorem eaF22_hit (I : Nat → Nat) (pdsep u2s dupd : Nat) (F22c : Mat)
    (st : FrontBlocks) (hu2s : u2s ≤ dupd)
    (hinj : ∀ k l, k < dupd → l < dupd → I k = I l → k = l)
    (hchar : ∀ k, k < dupd → (k < u2s ↔ I k < pdsep))
    (r0 c0 : Nat) (hr : r0 < dupd) (hc : c0 < dupd)
    (hr1 : pdsep ≤ I r0) (hc1 : pdsep ≤ I c0) :
    (extendAddToDense I pdsep u2s dupd F22c st).F22 (I r0 - pdsep) (I c0 - pdsep)
      = st.F22 (I r0 - pdsep) (I c0 - pdsep) + F22c r0 c0 := by
  have hr0u : u2s ≤ r0 := by
    by_contra hcon
    have := (hchar r0 hr).mp (by omega)
    omega
  unfold extendAddToDense
  refine foldl_obs_single _ (fun s => s.F22 (I r0 - pdsep) (I c0 - pdsep))
    (fun q => q + F22c r0 c0) (List.range dupd) c0 st
    (List.mem_range.mpr hc) (List.nodup_range _) ?_ ?_
  · intro s c hcm hne
    have hcd : c < dupd := List.mem_range.mp hcm
    by_cases h : I c < pdsep
    · rw [eaColStep_pos I pdsep u2s dupd F22c s c h]
    · rw [eaColStep_neg I pdsep u2s dupd F22c s c h]
      show (List.range' u2s (dupd - u2s)).foldl
        (fun M r => addTo M (I r - pdsep) (I c - pdsep) (F22c r c)) s.F22
        (I r0 - pdsep) (I c0 - pdsep)
        = s.F22 (I r0 - pdsep) (I c0 - pdsep)
      refine foldl_obs_frame (fun M r => addTo M (I r - pdsep) (I c - pdsep) (F22c r c))
        (fun M => M (I r0 - pdsep) (I c0 - pdsep)) (List.range' u2s (dupd - u2s)) s.F22 ?_
      intro M r _
      refine addTo_other _ _ _ _ _ _ (Or.inr ?_)
      intro he
      have : I c = I c0 := by omega
      exact hne (hinj c c0 hcd hc this)
  · intro s
    rw [eaColStep_neg I pdsep u2s dupd F22c s c0 (by omega)]
    show (List.range' u2s (dupd - u2s)).foldl _ s.F22
      (I r0 - pdsep) (I c0 - pdsep) = _
    refine foldl_obs_single _ (fun M => M (I r0 - pdsep) (I c0 - pdsep))
      (fun q => q + F22c r0 c0) (List.range' u2s (dupd - u2s)) r0 s.F22
      (by rw [List.mem_range'_1]; omega) (List.nodup_range' _ _) ?_ ?_
    · intro M r hrm hne
      rw [List.mem_range'_1] at hrm
      have hrd : r < dupd := by omega
      have hru : pdsep ≤ I r := by
        have := (hchar r hrd)
        omega
      refine addTo_other _ _ _ _ _ _ (Or.inl ?_)
      intro he
      have : I r = I r0 := by omega
      exact hne (hinj r r0 hrd hr this)
    · intro M
      exact addTo_same M (I r0 - pdsep) (I c0 - pdsep) (F22c r0 c0)

/-- Helper: F11 and F21 cells in a column not hit by the index map are left
unchanged by extend_add_to_dense. -/
theorem eaFrame_F11_F21_col (I : Nat → Nat) (pdsep u2s dupd : Nat)
    (F22c : Mat) (st : FrontBlocks) (x y : Nat)
    (h : ∀ k, k < dupd → I k ≠ y) :
    (extendAddToDense I pdsep u2s dupd F22c st).F11 x y = st.F11 x y
    ∧ (extendAddToDense I pdsep u2s dupd F22c st).F21 x y = st.F21 x y := by
  constructor
  · unfold extendAddToDense
    refine foldl_obs_frame (eaColStep I pdsep u2s dupd F22c)
      (fun s => s.F11 x y) (List.range dupd) st ?_
    intro s c hcm
    have hcd : c < dupd := List.mem_range.mp hcm
    by_cases hcp : I c < pdsep
    · rw [eaColStep_pos I pdsep u2s dupd F22c s c hcp]
      show (List.range u2s).foldl
        (fun M r => addTo M (I r) (I c) (F22c r c)) s.F11 x y = s.F11 x y
      refine foldl_obs_frame (fun M r => addTo M (I r) (I c) (F22c r c))
        (fun M => M x y) (List.range u2s) s.F11 ?_
      intro M r _
      exact addTo_other _ _ _ _ _ _ (Or.inr (h c hcd).symm)
    · rw [eaColStep_neg I pdsep u2s dupd F22c s c hcp]
  · unfold extendAddToDense
    refine foldl_obs_frame (eaColStep I pdsep u2s dupd F22c)
      (fun s => s.F21 x y) (List.range dupd) st ?_
    intro s c hcm
    have hcd : c < dupd := List.mem_range.mp hcm
    by_cases hcp : I c < pdsep
    · rw [eaColStep_pos I pdsep u2s dupd F22c s c hcp]
      show (List.range' u2s (dupd - u2s)).foldl
        (fun M r => addTo M (I r - pdsep) (I c) (F22c r c)) s.F21 x y
        = s.F21 x y
      refine foldl_obs_frame (fun M r => addTo M (I r - pdsep) (I c) (F22c r c))
        (fun M => M x y) (List.range' u2s (dupd - u2s)) s.F21 ?_
      intro M r _
      exact addTo_other _ _ _ _ _ _ (Or.inr (h c hcd).symm)
    · rw [eaColStep_neg I pdsep u2s dupd F22c s c hcp]

/-- Helper: F11 and F12 cells in a row not hit by the index map are left
unchanged by extend_add_to_dense. -/
theorem eaFrame_F11_F12_row (I : Nat → Nat) (pdsep u2s dupd : Nat)
    (F22c : Mat) (st : FrontBlocks) (x y : Nat) (hu2s : u2s ≤ dupd)
    (h : ∀ k, k < dupd → I k ≠ x) :
    (extendAddToDense I pdsep u2s dupd F22c st).F11 x y = st.F11 x y
    ∧ (extendAddToDense I pdsep u2s dupd F22c st).F12 x y = st.F12 x y := by
  constructor
  · unfold extendAddToDense
    refine foldl_obs_frame (eaColStep I pdsep u2s dupd F22c)
      (fun s => s.F11 x y) (List.range dupd) st ?_
    intro s c _
    by_cases hcp : I c < pdsep
    · rw [eaColStep_pos I pdsep u2s dupd F22c s c hcp]
      show (List.range u2s).foldl
        (fun M r => addTo M (I r) (I c) (F22c r c)) s.F11 x y = s.F11 x y
      refine foldl_obs_frame (fun M r => addTo M (I r) (I c) (F22c r c))
        (fun M => M x y) (List.range u2s) s.F11 ?_
      intro M r hrm
      have hrd : r < dupd := lt_of_lt_of_le (List.mem_range.mp hrm) hu2s
      exact addTo_other _ _ _ _ _ _ (Or.inl (h r hrd).symm)
    · rw [eaColStep_neg I pdsep u2s dupd F22c s c hcp]
  · unfold extendAddToDense
    refine foldl_obs_frame (eaColStep I pdsep u2s dupd F22c)
      (fun s => s.F12 x y) (List.range dupd) st ?_
    intro s c _
    by_cases hcp : I c < pdsep
    · rw [eaColStep_pos I pdsep u2s dupd F22c s c hcp]
    · rw [eaColStep_neg I pdsep u2s dupd F22c s c hcp]
      show (List.range u2s).foldl
        (fun M r => addTo M (I r) (I c - pdsep) (F22c r c)) s.F12 x y
        = s.F12 x y
      refine foldl_obs_frame (fun M r => addTo M (I r) (I c - pdsep) (F22c r c))
        (fun M => M x y) (List.range u2s) s.F12 ?_
      intro M r hrm
      have hrd : r < dupd := lt_of_lt_of_le (List.mem_range.mp hrm) hu2s
      exact addTo_other _ _ _ _ _ _ (Or.inl (h r hrd).symm)

/-- Helper: F21 and F22 cells in a row not hit by the shifted index map are
left unchanged by extend_add_to_dense. -/
theorem eaFrame_F21_F22_row (I : Nat → Nat) (pdsep u2s dupd : Nat)
    (F22c : Mat) (st : FrontBlocks) (x y : Nat) (hu2s : u2s ≤ dupd)
    (h : ∀ k, u2s ≤ k → k < dupd → I k - pdsep ≠ x) :
    (extendAddToDense I pdsep u2s dupd F22c st).F21 x y = st.F21 x y
    ∧ (extendAddToDense I pdsep u2s dupd F22c st).F22 x y = st.F22 x y := by
  constructor
  · unfold extendAddToDense
    refine foldl_obs_frame (eaColStep I pdsep u2s dupd F22c)
      (fun s => s.F21 x y) (List.range dupd) st ?_
    intro s c _
    by_cases hcp : I c < pdsep
    · rw [eaColStep_pos I pdsep u2s dupd F22c s c hcp]
      show (List.range' u2s (dupd - u2s)).foldl
        (fun M r => addTo M (I r - pdsep) (I c) (F22c r c)) s.F21 x y
        = s.F21 x y
      refine foldl_obs_frame (fun M r => addTo M (I r - pdsep) (I c) (F22c r c))
        (fun M => M x y) (List.range' u2s (dupd - u2s)) s.F21 ?_
      intro M r hrm
      rw [List.mem_range'_1] at hrm
      exact addTo_other _ _ _ _ _ _
        (Or.inl (h r hrm.1 (by omega)).symm)
    · rw [eaColStep_neg I pdsep u2s dupd F22c s c hcp]
  · unfold extendAddToDense
    refine foldl_obs_frame (eaColStep I pdsep u2s dupd F22c)
      (fun s => s.F22 x y) (List.range dupd) st ?_
    intro s c _
    by_cases hcp : I c < pdsep
    · rw [eaColStep_pos I pdsep u2s dupd F22c s c hcp]
    · rw [eaColStep_neg I pdsep u2s dupd F22c s c hcp]
      show (List.range' u2s (dupd - u2s)).foldl
        (fun M r => addTo M (I r - pdsep) (I c - pdsep) (F22c r c)) s.F22 x y
        = s.F22 x y
      refine foldl_obs_frame
        (fun M r => addTo M (I r - pdsep) (I c - pdsep) (F22c r c))
        (fun M => M x y) (List.range' u2s (dupd - u2s)) s.F22 ?_
      intro M r hrm
      rw [List.mem_range'_1] at hrm
      exact addTo_other _ _ _ _ _ _
        (Or.inl (h r hrm.1 (by omega)).symm)

/-- Helper: F12 and F22 cells in a column not hit by the shifted index map
are left unchanged by extend_add_to_dense. -/
theorem eaFrame_F12_F22_col (I : Nat → Nat) (pdsep u2s dupd : Nat)
    (F22c : Mat) (st : FrontBlocks) (x y : Nat)
    (h : ∀ k, k < dupd → (I k < pdsep ∨ I k - pdsep ≠ y)) :
    (extendAddToDense I pdsep u2s dupd F22c st).F12 x y = st.F12 x y
    ∧ (extendAddToDense I pdsep u2s dupd F22c st).F22 x y = st.F22 x y := by
  constructor
  · unfold extendAddToDense
    refine foldl_obs_frame (eaColStep I pdsep u2s dupd F22c)
      (fun s => s.F12 x y) (List.range dupd) st ?_
    intro s c hcm
    have hcd : c < dupd := List.mem_range.mp hcm
    by_cases hcp : I c < pdsep
    · rw [eaColStep_pos I pdsep u2s dupd F22c s c hcp]
    · rw [eaColStep_neg I pdsep u2s dupd F22c s c hcp]
      show (List.range u2s).foldl
        (fun M r => addTo M (I r) (I c - pdsep) (F22c r c)) s.F12 x y
        = s.F12 x y
      refine foldl_obs_frame (fun M r => addTo M (I r) (I c - pdsep) (F22c r c))
        (fun M => M x y) (List.range u2s) s.F12 ?_
      intro M r _
      refine addTo_other _ _ _ _ _ _ (Or.inr ?_)
      rcases h c hcd with hl | hr
      · exact absurd hl hcp
      · exact hr.symm
  · unfold extendAddToDense
    refine foldl_obs_frame (eaColStep I pdsep u2s dupd F22c)
      (fun s => s.F22 x y) (List.range dupd) st ?_
    intro s c hcm
    have hcd : c < dupd := List.mem_range.mp hcm
    by_cases hcp : I c < pdsep
    · rw [eaColStep_pos I pdsep u2s dupd F22c s c hcp]
    · rw [eaColStep_neg I pdsep u2s dupd F22c s c hcp]
      show (List.range' u2s (dupd - u2s)).foldl
        (fun M r => addTo M (I r - pdsep) (I c - pdsep) (F22c r c)) s.F22 x y
        = s.F22 x y
      refine foldl_obs_frame
        (fun M r => addTo M (I r - pdsep) (I c - pdsep) (F22c r c))
        (fun M => M x y) (List.range' u2s (dupd - u2s)) s.F22 ?_
      intro M r _
      refine addTo_other _ _ _ _ _ _ (Or.inr ?_)
      rcases h c hcd with hl | hr
      · exact absurd hl hcp
      · exact hr.symm

/-- Claim C1: extend-add quadrant mapping. With I = upd_to_parent and
pc = I[c], pr = I[r], each child Schur-complement entry F22c(r,c) is added
into exactly one parent quadrant: F11 at (pr, pc) when both pr and pc lie
below the parent separator size, F21 at (pr - pdsep, pc) when only pc does,
F12 at (pr, pc - pdsep) when only pr does, F22 at (pr - pdsep, pc - pdsep)
otherwise; every assembled cell equals its previous value plus the mapped
child entry, and cells in rows/columns not hit by the mapping keep their
previous value (so the assembled blocks are the previous blocks plus exactly
the mapped child contributions). Hypotheses: the child update list is
strictly sorted and each of its indices lies in the parent separator range
[sep_begin, sep_end) or in the parent update list, whose indices all lie at
or above sep_end (the data-model invariant of the spec). -/
theorem C1_extend_add_quadrant_mapping
    (b e : Nat) (paUpd chUpd : List Nat) (F22c : Mat) (st : FrontBlocks)
    (I : Nat → Nat) (u2s dupd pdsep : Nat)
    (hI : I = updToParentFun b e paUpd chUpd)
    (hu : u2s = updToParentU2s e chUpd)
    (hd : dupd = chUpd.length)
    (hp : pdsep = e - b)
    (hch : List.Pairwise (· < ·) chUpd)
    (hmem : ∀ u ∈ chUpd, (b ≤ u ∧ u < e) ∨ u ∈ paUpd)
    (hhi : ∀ u ∈ paUpd, e ≤ u) :
    (∀ r c, r < dupd → c < dupd → I r < pdsep → I c < pdsep →
      (extendAddToDense I pdsep u2s dupd F22c st).F11 (I r) (I c)
        = st.F11 (I r) (I c) + F22c r c)
    ∧ (∀ r c, r < dupd → c < dupd → pdsep ≤ I r → I c < pdsep →
      (extendAddToDense I pdsep u2s dupd F22c st).F21 (I r - pdsep) (I c)
        = st.F21 (I r - pdsep) (I c) + F22c r c)
    ∧ (∀ r c, r < dupd → c < dupd → I r < pdsep → pdsep ≤ I c →
      (extendAddToDense I pdsep u2s dupd F22c st).F12 (I r) (I c - pdsep)
        = st.F12 (I r) (I c - pdsep) + F22c r c)
    ∧ (∀ r c, r < dupd → c < dupd → pdsep ≤ I r → pdsep ≤ I c →
      (extendAddToDense I pdsep u2s dupd F22c st).F22
          (I r - pdsep) (I c - pdsep)
        = st.F22 (I r - pdsep) (I c - pdsep) + F22c r c)
    ∧ (∀ x y, (∀ k, k < dupd → I k ≠ y) →
      (extendAddToDense I pdsep u2s dupd F22c st).F11 x y = st.F11 x y
      ∧ (extendAddToDense I pdsep u2s dupd F22c st).F21 x y = st.F21 x y)
    ∧ (∀ x y, (∀ k, k < dupd → I k ≠ x) →
      (extendAddToDense I pdsep u2s dupd F22c st).F11 x y = st.F11 x y
      ∧ (extendAddToDense I pdsep u2s dupd F22c st).F12 x y = st.F12 x y)
    ∧ (∀ x y, (∀ k, u2s ≤ k → k < dupd → I k - pdsep ≠ x) →
      (extendAddToDense I pdsep u2s dupd F22c st).F21 x y = st.F21 x y
      ∧ (extendAddToDense I pdsep u2s dupd F22c st).F22 x y = st.F22 x y)
    ∧ (∀ x y, (∀ k, k < dupd → (I k < pdsep ∨ I k - pdsep ≠ y)) →
      (extendAddToDense I pdsep u2s dupd F22c st).F12 x y = st.F12 x y
      ∧ (extendAddToDense I pdsep u2s dupd F22c st).F22 x y = st.F22 x y) := by
  have hu2sd : u2s ≤ dupd := by
    rw [hu, hd]
    exact u2s_le_length e chUpd
  have hinj : ∀ k l, k < dupd → l < dupd → I k = I l → k = l := by
    rw [hI, hd]
    exact updToParentFun_inj b e paUpd chUpd hch hmem hhi
  have hchar : ∀ k, k < dupd → (k < u2s ↔ I k < pdsep) := by
    rw [hI, hd, hu, hp]
    exact updToParentFun_lt_iff b e paUpd chUpd hch hmem hhi
  refine ⟨?_, ?_, ?_, ?_, ?_, ?_, ?_, ?_⟩
  · intro r c hr hc hr1 hc1
    exact eaF11_hit I pdsep u2s dupd F22c st hu2sd hinj hchar r c hr hc hr1 hc1
  · intro r c hr hc hr1 hc1
    exact eaF21_hit I pdsep u2s dupd F22c st hu2sd hinj hchar r c hr hc hr1 hc1
  · intro r c hr hc hr1 hc1
    exact eaF12_hit I pdsep u2s dupd F22c st hu2sd hinj hchar r c hr hc hr1 hc1
  · intro r c hr hc hr1 hc1
    exact eaF22_hit I pdsep u2s dupd F22c st hu2sd hinj hchar r c hr hc hr1 hc1
  · intro x y h
    exact eaFrame_F11_F21_col I pdsep u2s dupd F22c st x y h
  · intro x y h
    exact eaFrame_F11_F12_row I pdsep u2s dupd F22c st x y hu2sd h
  · intro x y h
    exact eaFrame_F21_F22_row I pdsep u2s dupd F22c st x y hu2sd h
  · intro x y h
    exact eaFrame_F12_F22_col I pdsep u2s dupd F22c st x y h

/-- Witness for C1_extend_add_quadrant_mapping: parent separator [0, 2),
parent update list [5, 7], child update list [1, 5, 7] (mapped to parent
positions 1, 2, 3, upd2sep = 1): entry (0,0) of the child Schur complement
lands in parent F11 at (1,1) and entry (2,1) lands in F22 at (1,0). -/
theorem C1_extend_add_quadrant_mapping_witness :
    (extendAddToDense (updToParentFun 0 2 [5, 7] [1, 5, 7]) 2 1 3
        (fun r c => ((r * 3 + c + 1 : Nat) : ℚ))
        ⟨fun _ _ => 0, fun _ _ => 0, fun _ _ => 0, fun _ _ => 0⟩).F11
        (updToParentFun 0 2 [5, 7] [1, 5, 7] 0)
        (updToParentFun 0 2 [5, 7] [1, 5, 7] 0)
      = (0 : ℚ) + ((0 * 3 + 0 + 1 : Nat) : ℚ)
    ∧ (extendAddToDense (updToParentFun 0 2 [5, 7] [1, 5, 7]) 2 1 3
        (fun r c => ((r * 3 + c + 1 : Nat) : ℚ))
        ⟨fun _ _ => 0, fun _ _ => 0, fun _ _ => 0, fun _ _ => 0⟩).F22
        (updToParentFun 0 2 [5, 7] [1, 5, 7] 2 - 2)
        (updToParentFun 0 2 [5, 7] [1, 5, 7] 1 - 2)
      = (0 : ℚ) + ((2 * 3 + 1 + 1 : Nat) : ℚ) := by
  have h := C1_extend_add_quadrant_mapping 0 2 [5, 7] [1, 5, 7]
    (fun r c => ((r * 3 + c + 1 : Nat) : ℚ))
    ⟨fun _ _ => 0, fun _ _ => 0, fun _ _ => 0, fun _ _ => 0⟩
    (updToParentFun 0 2 [5, 7] [1, 5, 7]) 1 3 2
    rfl rfl rfl rfl (by decide) (by decide) (by decide)
  exact ⟨h.1 0 0 (by decide) (by decide) (by decide) (by decide),
    h.2.2.2.1 2 1 (by decide) (by decide) (by decide) (by decide)⟩

/-! ### Claim C7: partition-tree termination and leaf bound -/

/-- Helper: fueled leaf bound for the recursive constructor. -/
theorem buildHSSTree_leaf_bound_aux (L : Nat) (hL : 1 ≤ L) :
    ∀ (k m n : Nat), m + n ≤ k →
      ∀ q ∈ (buildHSSTree L hL m n).leavesList, q.1 ≤ L ∧ q.2 ≤ L := by
  intro k
  induction k with
  | zero =>
      intro m n hmn q hq
      rw [buildHSSTree] at hq
      rw [if_neg (by omega)] at hq
      simp only [PTree.leavesList, List.mem_singleton] at hq
      subst hq
      exact ⟨by omega, by omega⟩
  | succ k ih =>
      intro m n hmn q hq
      rw [buildHSSTree] at hq
      by_cases h : L < m ∨ L < n
      · rw [if_pos h] at hq
        simp only [PTree.leavesList, List.mem_append] at hq
        rcases hq with h0 | h1
        · exact ih (m / 2) (n / 2) (by omega) q h0
        · exact ih (m - m / 2) (n - n / 2) (by omega) q h1
      · rw [if_neg h] at hq
        simp only [PTree.leavesList, List.mem_singleton] at hq
        subst hq
        exact ⟨by omega, by omega⟩

/-- Claim C7: for every m, n and every leaf-size threshold L ≥ 1, the
recursive HSSMatrix(m, n, opts) constructor terminates (buildHSSTree is
total, by well-founded recursion on m + n, which is what the precondition
L ≥ 1 makes possible) and every leaf of the resulting binary tree has
rows ≤ L and cols ≤ L. -/
theorem C7_partition_tree_leaves (L : Nat) (hL : 1 ≤ L) (m n : Nat) :
    ∀ q ∈ (buildHSSTree L hL m n).leavesList, q.1 ≤ L ∧ q.2 ≤ L :=
  buildHSSTree_leaf_bound_aux L hL (m + n) m n (le_refl _)

/-- Witness for C7_partition_tree_leaves: splitting a 3 by 3 block with leaf
size 1 gives leaves of dimensions at most 1. -/
theorem C7_partition_tree_leaves_witness :
    (1 : Nat) ≤ 1
    ∧ ((1, 1) ∈ (buildHSSTree 1 (by norm_num) 3 3).leavesList)
    ∧ ((1, 1) : Nat × Nat).1 ≤ 1 ∧ ((1, 1) : Nat × Nat).2 ≤ 1 := by
  have hmem : ((1, 1) : Nat × Nat) ∈ (buildHSSTree 1 (by norm_num) 3 3).leavesList := by
    rw [buildHSSTree]
    rw [if_pos (by norm_num)]
    simp only [PTree.leavesList, List.mem_append]
    left
    norm_num
    rw [buildHSSTree]
    rw [if_neg (by norm_num)]
    simp [PTree.leavesList]
  have h := C7_partition_tree_leaves 1 (by norm_num) 3 3 (1, 1) hmem
  exact ⟨by norm_num, hmem, h.1, h.2⟩

/-! ### Claim C3: HSS structural reconstruction -/

/-- Helper: the work field tmpU computed by dense_recursive at a non-root
node agrees, on the node's rows, with the spec's child-aggregated row
generator. -/
theorem denseRec_tmpU_eq :
    ∀ (t : HSSTree) (i j : Nat), i < t.rows →
      (denseRec t false).2.1 i j = aggU t i j := by
  intro t
  induction t with
  | leaf r c ur vr D Ud Vd =>
      intro i j hi
      rfl
  | node ur vr B01 B10 Ud Vd c0 c1 ih0 ih1 =>
      intro i j hi
      show (if i < c0.rows then matMul c0.urank (denseRec c0 false).2.1 Ud i j
        else matMul c1.urank (denseRec c1 false).2.1
          (fun a bq => Ud (c0.urank + a) bq) (i - c0.rows) j) = _
      unfold aggU
      by_cases h : i < c0.rows
      · rw [if_pos h, if_pos h]
        unfold matMul
        refine Finset.sum_congr rfl ?_
        intro l _
        rw [ih0 i l h]
      · rw [if_neg h, if_neg h]
        unfold matMul
        refine Finset.sum_congr rfl ?_
        intro l _
        have hi1 : i - c0.rows < c1.rows := by
          simp only [HSSTree.rows] at hi
          omega
        rw [ih1 (i - c0.rows) l hi1]

/-- Helper: the work field tmpV computed by dense_recursive at a non-root
node agrees, on the node's columns, with the spec's child-aggregated column
generator. -/
theorem denseRec_tmpV_eq :
    ∀ (t : HSSTree) (i j : Nat), i < t.cols →
      (denseRec t false).2.2 i j = aggV t i j := by
  intro t
  induction t with
  | leaf r c ur vr D Ud Vd =>
      intro i j hi
      rfl
  | node ur vr B01 B10 Ud Vd c0 c1 ih0 ih1 =>
      intro i j hi
      show (if i < c0.cols then matMul c0.vrank (denseRec c0 false).2.2 Vd i j
        else matMul c1.vrank (denseRec c1 false).2.2
          (fun a bq => Vd (c0.vrank + a) bq) (i - c0.cols) j) = _
      unfold aggV
      by_cases h : i < c0.cols
      · rw [if_pos h, if_pos h]
        unfold matMul
        refine Finset.sum_congr rfl ?_
        intro l _
        rw [ih0 i l h]
      · rw [if_neg h, if_neg h]
        unfold matMul
        refine Finset.sum_congr rfl ?_
        intro l _
        have hi1 : i - c0.cols < c1.cols := by
          simp only [HSSTree.cols] at hi
          omega
        rw [ih1 (i - c0.cols) l hi1]

/-- Helper: regrouping the two gemm calls of dense_recursive,
`U · (B · Vᵗ) = (U · B) · Vᵗ`. -/
theorem offdiag_regroup (U B V : Mat) (ru rv : Nat) (i j : Nat) :
    matMul ru U (matMul rv B (matTrans V)) i j
      = matMul rv (matMul ru U B) (matTrans V) i j := by
  unfold matMul matTrans
  simp only [Finset.mul_sum, Finset.sum_mul]
  rw [Finset.sum_comm]
  refine Finset.sum_congr rfl ?_
  intro m _
  refine Finset.sum_congr rfl ?_
  intro l _
  ring

/-- Helper: the upper off-diagonal block computed by dense_recursive equals
the spec's low-rank product of aggregated generators and B01. -/
theorem offdiag01_eq (c0 c1 : HSSTree) (B01 : Mat) (i j2 : Nat)
    (hi : i < c0.rows) (hj : j2 < c1.cols) :
    matMul c0.urank (denseRec c0 false).2.1
        (matMul c1.vrank B01 (matTrans (denseRec c1 false).2.2)) i j2
      = matMul c1.vrank (matMul c0.urank (aggU c0) B01)
        (matTrans (aggV c1)) i j2 := by
  have h1 : matMul c0.urank (denseRec c0 false).2.1
      (matMul c1.vrank B01 (matTrans (denseRec c1 false).2.2)) i j2
      = matMul c0.urank (aggU c0)
        (matMul c1.vrank B01 (matTrans (aggV c1))) i j2 := by
    unfold matMul matTrans
    refine Finset.sum_congr rfl ?_
    intro l _
    rw [denseRec_tmpU_eq c0 i l hi]
    congr 1
    refine Finset.sum_congr rfl ?_
    intro m _
    rw [denseRec_tmpV_eq c1 j2 m hj]
  rw [h1, offdiag_regroup]

/-- Helper: the reconstructed block of dense_recursive coincides with the
spec's recursive quadrant formula on all in-range indices. -/
theorem denseRec_eq_specDense :
    ∀ (t : HSSTree) (b : Bool) (i j : Nat), i < t.rows → j < t.cols →
      (denseRec t b).1 i j = specDense t i j := by
  intro t
  induction t with
  | leaf r c ur vr D Ud Vd =>
      intro b i j hi hj
      cases b <;> rfl
  | node ur vr B01 B10 Ud Vd c0 c1 ih0 ih1 =>
      intro b i j hi hj
      simp only [HSSTree.rows] at hi
      simp only [HSSTree.cols] at hj
      have hA : (denseRec (.node ur vr B01 B10 Ud Vd c0 c1) b).1 i j
          = (if i < c0.rows then
              (if j < c0.cols then (denseRec c0 false).1 i j
               else matMul c0.urank (denseRec c0 false).2.1
                 (matMul c1.vrank B01 (matTrans (denseRec c1 false).2.2))
                 i (j - c0.cols))
             else
              (if j < c0.cols then
                 matMul c1.urank (denseRec c1 false).2.1
                   (matMul c0.vrank B10 (matTrans (denseRec c0 false).2.2))
                   (i - c0.rows) j
               else (denseRec c1 false).1 (i - c0.rows) (j - c0.cols))) := by
        cases b <;> rfl
      rw [hA]
      unfold specDense
      by_cases h1 : i < c0.rows
      · rw [if_pos h1, if_pos h1]
        by_cases h2 : j < c0.cols
        · rw [if_pos h2, if_pos h2]
          exact ih0 false i j h1 h2
        · rw [if_neg h2, if_neg h2]
          exact offdiag01_eq c0 c1 B01 i (j - c0.cols) h1 (by omega)
      · rw [if_neg h1, if_neg h1]
        by_cases h2 : j < c0.cols
        · rw [if_pos h2, if_pos h2]
          have h1b : i - c0.rows < c1.rows := by omega
          have hswap : matMul c1.urank (denseRec c1 false).2.1
              (matMul c0.vrank B10 (matTrans (denseRec c0 false).2.2))
              (i - c0.rows) j
              = matMul c0.vrank (matMul c1.urank (aggU c1) B10)
                (matTrans (aggV c0)) (i - c0.rows) j :=
            offdiag01_eq c1 c0 B10 (i - c0.rows) j h1b h2
          exact hswap
        · rw [if_neg h2, if_neg h2]
          exact ih1 false (i - c0.rows) (j - c0.cols) (by omega) (by omega)

/-- Claim C3: for an HSS matrix whose leaf D blocks come from the ANN
compression, each leaf D is exactly the element-oracle submatrix A(I, J) of
the leaf's row/column ranges, and dense() (dense_recursive from the root)
reconstructs every node's block by the spec's recursive quadrant formula
[[D00, U0·B01·V1ᵗ], [U1·B10·V0ᵗ, D11]], the off-diagonal blocks being
low-rank products of child-aggregated generators with the coupling blocks. -/
theorem C3_hss_dense_reconstruction :
    (∀ (A : Mat) (ofr ofc rows cols i j : Nat), i < rows → j < cols →
        compressLeafD A ofr ofc rows cols i j = A (ofr + i) (ofc + j))
    ∧ (∀ (t : HSSTree) (b : Bool) (i j : Nat), i < t.rows → j < t.cols →
        (denseRec t b).1 i j = specDense t i j) := by
  constructor
  · intro A ofr ofc rows cols i j hi hj
    unfold compressLeafD
    rw [List.getD_eq_getElem _ _ (by simpa using hi),
      List.getD_eq_getElem _ _ (by simpa using hj)]
    simp only [List.getElem_map, List.getElem_range]
    rw [Nat.add_comm i ofr, Nat.add_comm j ofc]
  · exact denseRec_eq_specDense

/-- Witness for C3_hss_dense_reconstruction: a 2-leaf HSS tree with 1×1
rank-1 leaves; the root's off-diagonal entry evaluates to
U0 · B01 · V1ᵗ = 2 · 1 · 11 = 22, and a compressed leaf entry reads the
oracle at the offset position. -/
theorem C3_hss_dense_reconstruction_witness :
    (denseRec
        (HSSTree.node 1 1 (fun _ _ => 1) (fun _ _ => 1)
          (fun _ _ => 0) (fun _ _ => 0)
          (HSSTree.leaf 1 1 1 1 (fun _ _ => 5) (fun _ _ => 2) (fun _ _ => 3))
          (HSSTree.leaf 1 1 1 1 (fun _ _ => 7) (fun _ _ => 13) (fun _ _ => 11)))
        true).1 0 1
      = specDense
        (HSSTree.node 1 1 (fun _ _ => 1) (fun _ _ => 1)
          (fun _ _ => 0) (fun _ _ => 0)
          (HSSTree.leaf 1 1 1 1 (fun _ _ => 5) (fun _ _ => 2) (fun _ _ => 3))
          (HSSTree.leaf 1 1 1 1 (fun _ _ => 7) (fun _ _ => 13) (fun _ _ => 11)))
        0 1
    ∧ specDense
        (HSSTree.node 1 1 (fun _ _ => 1) (fun _ _ => 1)
          (fun _ _ => 0) (fun _ _ => 0)
          (HSSTree.leaf 1 1 1 1 (fun _ _ => 5) (fun _ _ => 2) (fun _ _ => 3))
          (HSSTree.leaf 1 1 1 1 (fun _ _ => 7) (fun _ _ => 13) (fun _ _ => 11)))
        0 1 = 22
    ∧ compressLeafD (fun i j => ((i * 10 + j : Nat) : ℚ)) 3 4 2 2 1 0 = 44 := by
  refine ⟨C3_hss_dense_reconstruction.2 _ true 0 1 (by decide) (by decide),
    ?_, ?_⟩
  · show matMul 1 (matMul 1 (aggU _) (fun _ _ => 1))
      (matTrans (aggV _)) 0 0 = 22
    unfold matMul aggU aggV matTrans
    simp
    norm_num
  · rw [C3_hss_dense_reconstruction.1 (fun i j => ((i * 10 + j : Nat) : ℚ))
      3 4 2 2 1 0 (by decide) (by decide)]
    norm_num

/-! ### Claim C2: phase-2 elimination of a dense front -/

/-- Helper: the unit-lower factor has unit diagonal. -/
theorem lowerUnitOf_diag {n : Nat} (A : Matrix (Fin n) (Fin n) ℚ)
    (i : Fin n) : lowerUnitOf A i i = 1 := by
  unfold lowerUnitOf
  rw [if_neg (lt_irrefl i), if_pos rfl]

/-- Helper: the unit-lower factor vanishes above the diagonal. -/
theorem lowerUnitOf_upper {n : Nat} (A : Matrix (Fin n) (Fin n) ℚ)
    (i j : Fin n) (h : i < j) : lowerUnitOf A i j = 0 := by
  unfold lowerUnitOf
  rw [if_neg (lt_asymm h), if_neg (ne_of_lt h)]

/-- Helper: the upper factor vanishes below the diagonal. -/
theorem upperOf_lower {n : Nat} (A : Matrix (Fin n) (Fin n) ℚ)
    (i j : Fin n) (h : j < i) : upperOf A i j = 0 := by
  unfold upperOf
  rw [if_neg (not_le_of_lt h)]

/-- Helper: the upper factor's diagonal is the packed diagonal. -/
theorem upperOf_diag {n : Nat} (A : Matrix (Fin n) (Fin n) ℚ) (c : Fin n) :
    upperOf A c c = A c c := by
  unfold upperOf
  rw [if_pos (le_refl c)]

/-- Helper: splitting a sum over Fin n at a pivot index. -/
theorem fin_sum_split {n : Nat} (i : Fin n) (f : Fin n → ℚ)
    (htail : ∀ k, i < k → f k = 0) :
    ∑ k, f k = (∑ k ∈ Finset.univ.filter (fun k => k < i), f k) + f i := by
  rw [← Finset.sum_filter_add_sum_filter_not Finset.univ (fun k => k < i) f]
  congr 1
  have h2 : Finset.univ.filter (fun k : Fin n => ¬ k < i)
      = insert i (Finset.univ.filter (fun k => i < k)) := by
    ext k
    simp only [Finset.mem_filter, Finset.mem_univ, true_and,
      Finset.mem_insert, not_lt]
    constructor
    · intro h
      rcases eq_or_lt_of_le h with h | h
      · exact Or.inl h.symm
      · exact Or.inr h
    · intro h
      rcases h with h | h
      · exact le_of_eq h.symm
      · exact le_of_lt h
  rw [h2, Finset.sum_insert (by simp)]
  rw [Finset.sum_eq_zero (fun k hk => htail k (by
    simp only [Finset.mem_filter, Finset.mem_univ, true_and] at hk
    exact hk))]
  ring

/-- Helper: forward substitution solves `L · X = B` when L has unit diagonal
and vanishes above the diagonal (the contract of trsm Side::L UpLo::L
Diag::U). -/
theorem fwdSub_correct {n m : Nat} (L : Matrix (Fin n) (Fin n) ℚ)
    (B : Matrix (Fin n) (Fin m) ℚ)
    (hL1 : ∀ i, L i i = 1) (hLu : ∀ i j, i < j → L i j = 0) :
    L * fwdSub L B = B := by
  ext i j
  rw [Matrix.mul_apply]
  rw [fin_sum_split i (fun k => L i k * fwdSub L B k j)
    (fun k hk => by
      show L i k * fwdSub L B k j = 0
      rw [hLu i k hk, zero_mul])]
  rw [hL1 i, one_mul]
  show _ + fwdSubAux L B j i = B i j
  rw [fwdSubAux]
  rw [Finset.sum_attach
    (Finset.univ.filter (fun k : Fin n => k < i))
    (fun k => L i k * fwdSubAux L B j k)]
  simp only [fwdSub]
  ring

/-- Helper: backward substitution solves `X · U = B` when U vanishes below
the diagonal and has nonzero diagonal (the contract of trsm Side::R UpLo::U
Diag::N). -/
theorem backSubR_correct {n m : Nat} (U : Matrix (Fin n) (Fin n) ℚ)
    (B : Matrix (Fin m) (Fin n) ℚ)
    (hUd : ∀ c, U c c ≠ 0) (hUl : ∀ i j, j < i → U i j = 0) :
    backSubR U B * U = B := by
  ext r c
  rw [Matrix.mul_apply]
  rw [fin_sum_split c (fun k => backSubR U B r k * U k c)
    (fun k hk => by
      show backSubR U B r k * U k c = 0
      rw [hUl k c hk, mul_zero])]
  show _ + backSubAux U B r c * U c c = B r c
  rw [backSubAux]
  rw [div_mul_cancel₀ _ (hUd c)]
  rw [Finset.sum_attach
    (Finset.univ.filter (fun k : Fin n => k < c))
    (fun k => backSubAux U B r k * U k c)]
  simp only [backSubR]
  ring

/-- Helper: one laswp row interchange is left multiplication by the
corresponding transposition matrix. -/
theorem rowSwap_eq_mul {n m : Nat} (i p : Fin n)
    (B : Matrix (Fin n) (Fin m) ℚ) :
    rowSwap i p B = rowSwap i p (1 : Matrix (Fin n) (Fin n) ℚ) * B := by
  ext r c
  rw [Matrix.mul_apply]
  unfold rowSwap
  simp [Matrix.one_apply]

/-- Helper: laswp with a pivot list is left multiplication by the
accumulated permutation matrix. -/
theorem applySwaps_eq_mul {n : Nat} (sw : List (Fin n × Fin n)) :
    ∀ (m : Nat) (B : Matrix (Fin n) (Fin m) ℚ),
      applySwaps sw B = permMatrix sw * B := by
  induction sw with
  | nil =>
      intro m B
      rw [show @permMatrix n [] = 1 from rfl, Matrix.one_mul]
      rfl
  | cons s t ih =>
      intro m B
      show applySwaps t (rowSwap s.1 s.2 B)
        = applySwaps t (rowSwap s.1 s.2 (1 : Matrix (Fin n) (Fin n) ℚ)) * B
      rw [ih m (rowSwap s.1 s.2 B),
        ih n (rowSwap s.1 s.2 (1 : Matrix (Fin n) (Fin n) ℚ)),
        rowSwap_eq_mul s.1 s.2 B, ← Matrix.mul_assoc]

/-- Claim C2: with dim_sep > 0 and dim_upd > 0 (tiny-pivot replacement off),
factor_phase2 performs, in order: the pivoted LU factorization of F11
(pivots stored, packed factors stored in F11), the row pivots followed by
the unit-lower triangular solve applied to F12, the upper triangular solve
applied to F21, and the Schur update `F22 := F22 - F21·F12` as a single
matrix product of the two triangular-solved blocks; consequently, whenever
the LU kernel satisfied its contract `P·F11 = L·U` with nonsingular U, the
retained F22 equals `F22 - F21·F11⁻¹·F12` (stated inverse-free: for every X
with `F11·X = F12`, the new F22 is `F22 - F21·X`). -/
theorem C2_factor_phase2_elimination {ds du : Nat}
    (lu : Matrix (Fin ds) (Fin ds) ℚ →
      Matrix (Fin ds) (Fin ds) ℚ × List (Fin ds × Fin ds))
    (fr : DenseFront ds du) (hds : 0 < ds) (hdu : 0 < du)
    (hPLU : permMatrix (lu fr.F11).2 * fr.F11
      = lowerUnitOf (lu fr.F11).1 * upperOf (lu fr.F11).1)
    (hUdiag : ∀ c : Fin ds, (lu fr.F11).1 c c ≠ 0) :
    (factorPhase2 lu false 0 fr).2 = (lu fr.F11).2
    ∧ (factorPhase2 lu false 0 fr).1.F11 = (lu fr.F11).1
    ∧ (factorPhase2 lu false 0 fr).1.F12
        = fwdSub (lowerUnitOf (lu fr.F11).1)
            (applySwaps (lu fr.F11).2 fr.F12)
    ∧ (factorPhase2 lu false 0 fr).1.F21
        = backSubR (upperOf (lu fr.F11).1) fr.F21
    ∧ (factorPhase2 lu false 0 fr).1.F22
        = fr.F22 - (factorPhase2 lu false 0 fr).1.F21
            * (factorPhase2 lu false 0 fr).1.F12
    ∧ (∀ X : Matrix (Fin ds) (Fin du) ℚ, fr.F11 * X = fr.F12 →
        (factorPhase2 lu false 0 fr).1.F22 = fr.F22 - fr.F21 * X) := by
  have hproj : factorPhase2 lu false 0 fr =
      (⟨(lu fr.F11).1,
        fwdSub (lowerUnitOf (lu fr.F11).1) (applySwaps (lu fr.F11).2 fr.F12),
        backSubR (upperOf (lu fr.F11).1) fr.F21,
        fr.F22 - backSubR (upperOf (lu fr.F11).1) fr.F21
          * fwdSub (lowerUnitOf (lu fr.F11).1)
              (applySwaps (lu fr.F11).2 fr.F12)⟩,
       (lu fr.F11).2) := by
    unfold factorPhase2
    rw [if_pos hds]
    simp only [Bool.false_eq_true, if_false, if_pos hdu]
  refine ⟨by rw [hproj], by rw [hproj], by rw [hproj], by rw [hproj],
    by rw [hproj], ?_⟩
  intro X hX
  have hL1 : ∀ i, lowerUnitOf (lu fr.F11).1 i i = 1 :=
    lowerUnitOf_diag (lu fr.F11).1
  have hLu : ∀ i j, i < j → lowerUnitOf (lu fr.F11).1 i j = 0 :=
    lowerUnitOf_upper (lu fr.F11).1
  have hUd : ∀ c, upperOf (lu fr.F11).1 c c ≠ 0 := by
    intro c
    rw [upperOf_diag]
    exact hUdiag c
  have hUl : ∀ i j, j < i → upperOf (lu fr.F11).1 i j = 0 :=
    upperOf_lower (lu fr.F11).1
  have hdet : (lowerUnitOf (lu fr.F11).1).det = 1 := by
    rw [Matrix.det_of_lowerTriangular (lowerUnitOf (lu fr.F11).1)
      (fun i j hij => hLu i j hij)]
    simp only [lowerUnitOf_diag]
    exact Finset.prod_const_one
  haveI : Invertible (lowerUnitOf (lu fr.F11).1) :=
    (lowerUnitOf (lu fr.F11).1).invertibleOfIsUnitDet
      (by rw [hdet]; exact isUnit_one)
  have hF12 : lowerUnitOf (lu fr.F11).1
      * fwdSub (lowerUnitOf (lu fr.F11).1) (applySwaps (lu fr.F11).2 fr.F12)
      = permMatrix (lu fr.F11).2 * fr.F12 := by
    rw [fwdSub_correct _ _ hL1 hLu, applySwaps_eq_mul (lu fr.F11).2 du fr.F12]
  have h2 : lowerUnitOf (lu fr.F11).1 * (upperOf (lu fr.F11).1 * X)
      = lowerUnitOf (lu fr.F11).1
        * fwdSub (lowerUnitOf (lu fr.F11).1)
            (applySwaps (lu fr.F11).2 fr.F12) := by
    rw [hF12, ← Matrix.mul_assoc, ← hPLU, Matrix.mul_assoc, hX]
  have h3 : upperOf (lu fr.F11).1 * X
      = fwdSub (lowerUnitOf (lu fr.F11).1)
          (applySwaps (lu fr.F11).2 fr.F12) := by
    calc upperOf (lu fr.F11).1 * X
        = ⅟(lowerUnitOf (lu fr.F11).1)
          * (lowerUnitOf (lu fr.F11).1 * (upperOf (lu fr.F11).1 * X)) := by
          rw [← Matrix.mul_assoc, invOf_mul_self, Matrix.one_mul]
      _ = ⅟(lowerUnitOf (lu fr.F11).1)
          * (lowerUnitOf (lu fr.F11).1
            * fwdSub (lowerUnitOf (lu fr.F11).1)
                (applySwaps (lu fr.F11).2 fr.F12)) := by rw [h2]
      _ = fwdSub (lowerUnitOf (lu fr.F11).1)
            (applySwaps (lu fr.F11).2 fr.F12) := by
          rw [← Matrix.mul_assoc, invOf_mul_self, Matrix.one_mul]
  have h4 : fr.F21 * X
      = backSubR (upperOf (lu fr.F11).1) fr.F21
        * fwdSub (lowerUnitOf (lu fr.F11).1)
            (applySwaps (lu fr.F11).2 fr.F12) := by
    conv_lhs => rw [← backSubR_correct (upperOf (lu fr.F11).1) fr.F21 hUd hUl]
    rw [Matrix.mul_assoc, h3]
  rw [hproj]
  show fr.F22 - _ = fr.F22 - fr.F21 * X
  rw [h4]

/-- Witness for C2_factor_phase2_elimination: a 1+1 front with F11 = [2],
F12 = [1], F21 = [1], F22 = [5] and the exact LU kernel returning ([2], no
pivots); the solved X = [1/2] gives new F22 = [5 - 1·(1/2)] = [9/2]. -/
theorem C2_factor_phase2_elimination_witness :
    (factorPhase2
        (fun A => (A, ([] : List (Fin 1 × Fin 1)))) false 0
        (⟨fun _ _ => 2, fun _ _ => 1, fun _ _ => 1, fun _ _ => 5⟩ :
          DenseFront 1 1)).1.F22
      = (⟨fun _ _ => 2, fun _ _ => 1, fun _ _ => 1, fun _ _ => 5⟩ :
          DenseFront 1 1).F22
        - (⟨fun _ _ => 2, fun _ _ => 1, fun _ _ => 1, fun _ _ => 5⟩ :
            DenseFront 1 1).F21
          * Matrix.of (fun _ _ => (1 / 2 : ℚ)) := by
  have h := C2_factor_phase2_elimination
    (fun A => (A, ([] : List (Fin 1 × Fin 1))))
    (⟨fun _ _ => 2, fun _ _ => 1, fun _ _ => 1, fun _ _ => 5⟩ :
      DenseFront 1 1)
    (by norm_num) (by norm_num)
    (by
      ext i j
      fin_cases i
      fin_cases j
      simp [permMatrix, applySwaps, lowerUnitOf, upperOf, Matrix.mul_apply])
    (by
      intro c
      norm_num)
  exact h.2.2.2.2.2 (Matrix.of (fun _ _ => (1 / 2 : ℚ)))
    (by
      ext i j
      simp [Matrix.mul_apply])

end StrumpackSpec
